import Mathlib

/-!
xbm2qmk: row-packed (XBM) to page-packed (QMK / SSD1306) bitmap conversion

A shallow embedding of `src/xbm2qmk.c`.

Modelling conventions.
* A C `int` is a Lean `Int`; `/` and `%` on `int` are the truncating
  `Int.tdiv` and `Int.tmod`.  Signed overflow is undefined in C and is not
  modelled: the arithmetic below is exact on every run in which no
  intermediate value leaves the range of `int`.
* An `unsigned char` buffer is a `List Nat`; a store keeps the low eight
  bits (`% 256`).
* An access outside a buffer is undefined behaviour in C; here it makes the
  operation return `none`.
-/

namespace Xbm2qmk

/-! ## Buffers -/

/-- The read `buf[i]` of an `unsigned char` buffer, `none` outside the buffer. -/
def readByte (buf : List Nat) (i : Int) : Option Nat :=
  if 0 ≤ i then buf[i.toNat]? else none

/-- The store `buf[i] = v` into an `unsigned char` buffer, `none` outside the buffer. -/
def writeByte (buf : List Nat) (i : Int) (v : Nat) : Option (List Nat) :=
  if 0 ≤ i ∧ i.toNat < buf.length then some (buf.set i.toNat (v % 256)) else none

/-! ## `xbm_to_page_packed` (lines 17-52) -/

/-- Lines 34-36: `for (int i = 0; i < total_bytes; i++) dst[i] = 0x00;`. -/
def zeroLoop (dst : List Nat) (total_bytes : Int) : Option (List Nat) :=
  (List.range total_bytes.toNat).foldlM (fun d (i : Nat) => writeByte d (i : Int) 0x00) dst

/-- Line 40: `src_byte_index = (y * bytes_per_row) + (x / 8)`. -/
def src_byte_index (bytes_per_row : Int) (x y : Int) : Int :=
  (y * bytes_per_row) + (Int.tdiv x 8)

/-- Line 41: `src_bit = x % 8`. -/
def src_bit (x : Int) : Int := Int.tmod x 8

/-- Line 44: `page = y / 8`. -/
def page (y : Int) : Int := Int.tdiv y 8

/-- Line 45: `bit_within_page = y % 8`. -/
def bit_within_page (y : Int) : Int := Int.tmod y 8

/-- Line 46: `dst_byte_index = (page * width) + x`. -/
def dst_byte_index (width : Int) (x y : Int) : Int :=
  (page y * width) + x

/-- Lines 40-49, the body of the inner loop for the pixel `(x, y)`. -/
def pixelStep (src : List Nat) (width bytes_per_row : Int) (y x : Int)
    (dst : List Nat) : Option (List Nat) := do
  let s ← readByte src (src_byte_index bytes_per_row x y)
  let pixel_on := (s >>> (src_bit x).toNat) &&& 1
  if pixel_on ≠ 0 then
    let d ← readByte dst (dst_byte_index width x y)
    writeByte dst (dst_byte_index width x y) (d ||| (1 <<< (bit_within_page y).toNat))
  else
    some dst

/-- Lines 39-50: `for (int x = 0; x < width; x++) { ... }` for the row `y`. -/
def rowLoop (src : List Nat) (width bytes_per_row : Int) (y : Int)
    (dst : List Nat) : Option (List Nat) :=
  (List.range width.toNat).foldlM
    (fun d (x : Nat) => pixelStep src width bytes_per_row y (x : Int) d) dst

/-- Lines 38-51: `for (int y = 0; y < height; y++) { ... }`. -/
def pixelLoop (src : List Nat) (width height bytes_per_row : Int)
    (dst : List Nat) : Option (List Nat) :=
  (List.range height.toNat).foldlM
    (fun d (y : Nat) => rowLoop src width bytes_per_row (y : Int) d) dst

/-- The function `xbm_to_page_packed(dst, src, width, height)`: the final contents of the
buffer `dst`, or `none` when an access falls outside `src` or `dst`.  (The variable `pages`
of line 31 is never read and is left out.) -/
def xbm_to_page_packed (dst src : List Nat) (width height : Int) : Option (List Nat) := do
  let bytes_per_row := Int.tdiv width 8
  let total_bytes := bytes_per_row * height
  let dst0 ← zeroLoop dst total_bytes
  pixelLoop src width height bytes_per_row dst0

/-- Lines 30-32 of `xbm_to_page_packed`: `total_bytes = bytes_per_row * height` with
`bytes_per_row = width / 8`, the number of bytes lines 34-36 clear. -/
def total_bytes (width height : Int) : Int :=
  Int.tdiv width 8 * height

/-! ## `main` (lines 54-162)

The text of the input file is a list of lines, each a list of characters: the successive
results of `fgets`.  The C library is a parameter of the model. -/

/-- What the call `sscanf(line, "#define %[^_]_width %d", name, &width)` of line 71 did. -/
inductive WidthScan where
  /-- It returned 0 or `EOF`: nothing was stored. -/
  | noMatch
  /-- It returned 1: only `name` was stored. -/
  | nameOnly (name : List Char)
  /-- It returned 2: `name` and `width` were stored. -/
  | full (name : List Char) (width : Int)
  deriving DecidableEq

/-- The C library functions `main` calls. -/
structure Libc where
  /-- Line 71: `sscanf(line, "#define %[^_]_width %d", name, &width)`. -/
  sscanf_width : List Char → WidthScan
  /-- Line 74: `sscanf(line, "#define %*[^_]_height %d", &height)`; `some v` when it
  returned 1 and stored `v`. -/
  sscanf_height : List Char → Option Int
  /-- Whether `strstr(haystack, needle)` is not `NULL`. -/
  strstr : List Char → List Char → Bool
  /-- Whether `isspace((unsigned char)c)` is not 0. -/
  isspace : Char → Bool
  /-- Line 108: `sscanf(p, "0x%x", &val)`; `some v` when it returned 1 and stored `v`. -/
  sscanf_hex : List Char → Option Nat
  /-- Whether the `k`-th call of `calloc` (counted from 0), asked for `n` bytes, succeeds. -/
  calloc : Nat → Int → Bool

/-- What `main` does that can be observed, in program order. -/
inductive Event where
  /-- Line 56: the usage message on `stderr`. -/
  | usage
  /-- Line 62: `perror("fopen")`. -/
  | perror
  /-- Line 84: `Failed to find width or height in ...` on `stderr`. -/
  | failedDims
  /-- Lines 92 and 131: `Memory allocation failed.` on `stderr`. -/
  | allocFailed
  /-- Line 126: `Warning: did not read enough bytes (count of total_bytes)` on `stderr`. -/
  | warnShort (count total_bytes : Int)
  /-- The call `fclose(fp)`. -/
  | fclose
  /-- The call `calloc(n, 1)`. -/
  | calloc (n : Int)
  /-- The call `free(...)`. -/
  | free
  /-- Line 136: the call `xbm_to_page_packed(dst, src, width, height)`. -/
  | call (dst src : List Nat) (width height : Int)
  /-- Text written to `stdout` by `printf`. -/
  | print (text : List Char)
  deriving DecidableEq

/-- Why a loop of `main` gave no result. -/
inductive Stop where
  /-- An access outside a buffer. -/
  | fault
  /-- The iteration bound given to the model ran out. -/
  | fuel
  deriving DecidableEq

/-- How a run of `main` ends. -/
inductive Run where
  /-- A `return status;` of `main`, after the events of `trace`. -/
  | exit (status : Int) (trace : List Event)
  /-- An access outside a buffer, after the events of `trace`. -/
  | undefined (trace : List Event)
  /-- The scanning loop of lines 100-116 did not end within the iteration bound. -/
  | hang (trace : List Event)
  deriving DecidableEq

/-- The events of a run. -/
def Run.trace : Run → List Event
  | .exit _ t => t
  | .undefined t => t
  | .hang t => t

/-- The variables lines 66-81 set, and the lines of the file not read yet. -/
structure Header where
  /-- The variable `width`. -/
  width : Int
  /-- The variable `height`. -/
  height : Int
  /-- The buffer `name`. -/
  name : List Char
  /-- The lines of the file after the last one read. -/
  rest : List (List Char)

/-- Lines 70-81: the loop that looks for the two `#define` lines. -/
def readHeader (libc : Libc) : List (List Char) → Int → Int → List Char → Header
  | [], width, height, name => ⟨width, height, name, []⟩
  | line :: rest, width, height, name =>
    match libc.sscanf_width line with
    | .full n w => readHeader libc rest w height n
    | .nameOnly n =>
      match libc.sscanf_height line with
      | some v => readHeader libc rest width v n
      | none =>
        if libc.strstr line "static".toList && libc.strstr line "[]".toList then
          ⟨width, height, n, rest⟩
        else readHeader libc rest width height n
    | .noMatch =>
      match libc.sscanf_height line with
      | some v => readHeader libc rest width v name
      | none =>
        if libc.strstr line "static".toList && libc.strstr line "[]".toList then
          ⟨width, height, name, rest⟩
        else readHeader libc rest width height name

/-- Lines 101-103: `while (*p && isspace((unsigned char)*p)) p++;`. -/
def skipSpace (libc : Libc) : List Char → List Char
  | [] => []
  | c :: cs => if libc.isspace c then skipSpace libc cs else c :: cs

/-- Lines 112-114: `while (*p && *p != ',' && *p != '}') p++;`. -/
def skipToken : List Char → List Char
  | [] => []
  | c :: cs => if c ≠ ',' ∧ c ≠ '\x7d' then skipToken cs else c :: cs

/-- Lines 106-111: store the byte of a `0x` literal at `p`, if there is one. -/
def storeHex (libc : Libc) (p : List Char) (count : Int) (buf : List Nat) :
    Option (Int × List Nat) :=
  match p with
  | '0' :: 'x' :: _ =>
    match libc.sscanf_hex p with
    | some val => (writeByte buf count val).map (fun b => (count + 1, b))
    | none => some (count, buf)
  | _ => some (count, buf)

/-- Lines 100-116: the loop over the characters of one line; `fuel` bounds the number of
iterations. -/
def scanLine (libc : Libc) (total_bytes : Int) :
    Nat → List Char → Int → List Nat → Except Stop (Int × List Nat)
  | 0, _, _, _ => .error .fuel
  | fuel + 1, p, count, buf =>
    if p ≠ [] ∧ count < total_bytes then
      match skipSpace libc p with
      | [] => .ok (count, buf)
      | c :: cs =>
        match storeHex libc (c :: cs) count buf with
        | none => .error .fault
        | some (count1, buf1) =>
          match skipToken (c :: cs) with
          | ',' :: p1 => scanLine libc total_bytes fuel p1 count1 buf1
          | p1 => scanLine libc total_bytes fuel p1 count1 buf1
    else .ok (count, buf)

/-- Lines 98-121: the loop over the lines that hold the bytes. -/
def readData (libc : Libc) (total_bytes : Int) (fuel : Nat) :
    List (List Char) → Int → List Nat → Except Stop (Int × List Nat)
  | [], count, buf => .ok (count, buf)
  | line :: rest, count, buf =>
    if count < total_bytes then
      match scanLine libc total_bytes fuel line count buf with
      | .error e => .error e
      | .ok (count1, buf1) =>
        if libc.strstr line "\x7d;".toList then .ok (count1, buf1)
        else readData libc total_bytes fuel rest count1 buf1
    else .ok (count, buf)

/-- The two digits `%02X` prints for a byte. -/
def hex02X (b : Nat) : List Char :=
  ["0123456789ABCDEF".toList.getD (b / 16 % 16) '0', "0123456789ABCDEF".toList.getD (b % 16) '0']

/-- Lines 142-155: what the loop prints for the byte `b` at index `i`. -/
def printByte (total_bytes : Int) (i : Nat) (b : Nat) : List Char :=
  (if i % 8 = 0 then "    ".toList else []) ++ "0x".toList ++ hex02X b
    ++ (if (i : Int) < total_bytes - 1 then [','] else [' '])
    ++ (if i % 8 = 7 then ['\n'] else [' '])

/-- Lines 139-157: the text of the array, `none` when a read leaves the buffer. -/
def printArray (name : List Char) (total_bytes : Int) (page_packed_data : List Nat) :
    Option (List Char) :=
  (List.range total_bytes.toNat).foldlM
    (fun out (i : Nat) => (readByte page_packed_data (i : Int)).map
      (fun b => out ++ printByte total_bytes i b))
    ("const char PROGMEM ".toList ++ name ++ "_qmk[] = \x7b\n".toList)
  |>.map (fun out => out ++ "\x7d;\n\n".toList)

/-- The buffer `calloc(n, 1)` returns when it succeeds: `n` is converted to a 64-bit
`size_t`. -/
def callocBuffer (n : Int) : List Nat :=
  List.replicate (n % 2 ^ 64).toNat 0

/-- Lines 89-161 of `main`: everything after the dimension check. -/
def convert (libc : Libc) (fuel : Nat) (hd : Header) : Run :=
  let total_bytes := Int.tdiv (hd.width * hd.height) 8
  if libc.calloc 0 total_bytes = false then
    .exit 1 [.calloc total_bytes, .allocFailed, .fclose]
  else
    match readData libc total_bytes fuel hd.rest 0 (callocBuffer total_bytes) with
    | .error .fuel => .hang [.calloc total_bytes]
    | .error .fault => .undefined [.calloc total_bytes]
    | .ok (count, row_packed_data) =>
      let warning := if count < total_bytes then [Event.warnShort count total_bytes] else []
      let read := [Event.calloc total_bytes, Event.fclose] ++ warning
        ++ [Event.calloc total_bytes]
      if libc.calloc 1 total_bytes = false then
        .exit 1 (read ++ [.allocFailed, .free])
      else
        let called := read
          ++ [Event.call (callocBuffer total_bytes) row_packed_data hd.width hd.height]
        match xbm_to_page_packed (callocBuffer total_bytes) row_packed_data
            hd.width hd.height with
        | none => .undefined called
        | some page_packed_data =>
          match printArray hd.name total_bytes page_packed_data with
          | none => .undefined (called ++ [.free])
          | some text => .exit 0 (called ++ [.free, .print text, .free])

/-- The function `main`: `argc` is the argument count and `file` the lines of the file
`argv[1]`, `none` when `fopen` fails. -/
def main (libc : Libc) (fuel : Nat) (argc : Int) (file : Option (List (List Char))) : Run :=
  if argc < 2 then .exit 1 [.usage]
  else
    match file with
    | none => .exit 1 [.perror]
    | some lines =>
      let hd := readHeader libc lines 0 0 []
      if hd.width = 0 ∨ hd.height = 0 then .exit 1 [.failedDims, .fclose]
      else convert libc fuel hd

/-! ## A C library for the examples

The theorems about `main` hold for every `Libc`.  The concrete runs below need one: the
functions of this section agree with the C library on XBM text as it is usually written
(`#define` lines with one space between the words, byte literals made of `0x` and
hexadecimal digits). -/

/-- The function `isspace` in the "C" locale. -/
def c_isspace (c : Char) : Bool :=
  c = ' ' || c = '\t' || c = '\n' || c = '\x0b' || c = '\x0c' || c = '\r'

/-- Whether `needle` occurs in `hay`. -/
def c_strstr (hay needle : List Char) : Bool :=
  hay.tails.any (fun t => needle.isPrefixOf t)

/-- Match the characters of `lit` at the front of the input; the rest of the input. -/
def expectLit : List Char → List Char → Option (List Char)
  | [], s => some s
  | _ :: _, [] => none
  | c :: cs, d :: ds => if c = d then expectLit cs ds else none

/-- The value of a run of decimal digits. -/
def decimalValue (ds : List Char) : Nat :=
  ds.foldl (fun n c => 10 * n + (c.toNat - '0'.toNat)) 0

/-- The conversion `%d`: white space, an optional sign, decimal digits. -/
def scan_d (s : List Char) : Option Int :=
  match s.dropWhile c_isspace with
  | '-' :: t =>
    if t.takeWhile Char.isDigit = [] then none
    else some (-(decimalValue (t.takeWhile Char.isDigit) : Int))
  | '+' :: t =>
    if t.takeWhile Char.isDigit = [] then none
    else some (decimalValue (t.takeWhile Char.isDigit) : Int)
  | t =>
    if t.takeWhile Char.isDigit = [] then none
    else some (decimalValue (t.takeWhile Char.isDigit) : Int)

/-- The call `sscanf(line, "#define %[^_]_width %d", name, &width)`. -/
def c_sscanf_width (line : List Char) : WidthScan :=
  match expectLit "#define".toList line with
  | none => .noMatch
  | some s1 =>
    let s2 := s1.dropWhile c_isspace
    if s2.takeWhile (fun c => c != '_') = [] then .noMatch
    else
      match expectLit "_width".toList (s2.dropWhile (fun c => c != '_')) with
      | none => .nameOnly (s2.takeWhile (fun c => c != '_'))
      | some s3 =>
        match scan_d s3 with
        | none => .nameOnly (s2.takeWhile (fun c => c != '_'))
        | some v => .full (s2.takeWhile (fun c => c != '_')) v

/-- The call `sscanf(line, "#define %*[^_]_height %d", &height)`. -/
def c_sscanf_height (line : List Char) : Option Int :=
  match expectLit "#define".toList line with
  | none => none
  | some s1 =>
    let s2 := s1.dropWhile c_isspace
    if s2.takeWhile (fun c => c != '_') = [] then none
    else
      match expectLit "_height".toList (s2.dropWhile (fun c => c != '_')) with
      | none => none
      | some s3 => scan_d s3

/-- The value of a hexadecimal digit, `none` for any other character. -/
def hexDigit (c : Char) : Option Nat :=
  if '0' ≤ c ∧ c ≤ '9' then some (c.toNat - '0'.toNat)
  else if 'a' ≤ c ∧ c ≤ 'f' then some (c.toNat - 'a'.toNat + 10)
  else if 'A' ≤ c ∧ c ≤ 'F' then some (c.toNat - 'A'.toNat + 10)
  else none

/-- The value of the longest run of hexadecimal digits at the front of the input, as an
`unsigned int`, and whether there was a digit. -/
def hexValue : List Char → Nat → Bool → Option Nat
  | [], acc, seen => if seen then some acc else none
  | c :: cs, acc, seen =>
    match hexDigit c with
    | some v => hexValue cs ((16 * acc + v) % 2 ^ 32) true
    | none => if seen then some acc else none

/-- The call `sscanf(p, "0x%x", &val)` on a literal made of `0x` and hexadecimal digits. -/
def c_sscanf_hex (p : List Char) : Option Nat :=
  match p with
  | '0' :: 'x' :: t => hexValue t 0 false
  | _ => none

/-- The C library of the examples; every `calloc` succeeds. -/
def xbmLibc : Libc :=
  ⟨c_sscanf_width, c_sscanf_height, c_strstr, c_isspace, c_sscanf_hex, fun _ _ => true⟩

/-- An XBM file that declares a 10 x 8 bitmap. -/
def file10x8 : List (List Char) :=
  ["#define img_width 10\n".toList,
   "#define img_height 8\n".toList,
   "static unsigned char img_bits[] = \x7b\n".toList,
   "   0x01, 0x02, 0x04, 0x08, 0x10, 0x20, 0x40, 0x80, 0xff, 0x00 \x7d;\n".toList]

/-- An XBM file whose width declaration is missing. -/
def fileNoWidth : List (List Char) :=
  ["#define img_height 8\n".toList,
   "static unsigned char img_bits[] = \x7b\n".toList,
   "   0x01, 0x02, 0x04, 0x08, 0x10, 0x20, 0x40, 0x80 \x7d;\n".toList]

/-- An XBM file that declares an 8 x 8 bitmap and holds four of its eight bytes. -/
def fileShort8x8 : List (List Char) :=
  ["#define img_width 8\n".toList,
   "#define img_height 8\n".toList,
   "static unsigned char img_bits[] = \x7b\n".toList,
   "   0x01, 0x02, 0x04, 0x08 \x7d;\n".toList]

/-- An XBM file that declares an 8 x 12 bitmap with every pixel set. -/
def file8x12 : List (List Char) :=
  ["#define img_width 8\n".toList,
   "#define img_height 12\n".toList,
   "static unsigned char img_bits[] = \x7b\n".toList,
   "   0xff, 0xff, 0xff, 0xff, 0xff, 0xff, 0xff, 0xff, 0xff, 0xff, 0xff, 0xff \x7d;\n".toList]

/-! ## Specification-side vocabulary

The definitions of this section are not taken from the C file: they name the two bitmap
layouts in the words of the specification, and the theorems compare them with the code. -/

/-- The pixel `(x, y)` of a row-packed buffer: bit `x mod 8` of byte `y*(width/8) + x/8`. -/
def rowPixel (buf : List Nat) (width x y : Nat) : Bool :=
  (buf.getD (y * (width / 8) + x / 8) 0).testBit (x % 8)

/-- The pixel `(x, y)` of a page-packed buffer: bit `y mod 8` of byte `(y/8)*width + x`. -/
def pagePixel (buf : List Nat) (width x y : Nat) : Bool :=
  (buf.getD (y / 8 * width + x) 0).testBit (y % 8)

/-- The byte whose bit `k` is `f k`, for `k = 0 .. 7`. -/
def byteOfBits (f : Nat → Bool) : Nat :=
  (List.range 8).foldl (fun acc k => if f k then acc ||| (1 <<< k) else acc) 0

/-- The page-packed image of a row-packed buffer, byte by byte: bit `k` of byte `i` is the
pixel in column `i mod width` and row `8*(i/width) + k`. -/
def pagePacked (width height : Nat) (src : List Nat) : List Nat :=
  (List.range (width * height / 8)).map
    (fun i => byteOfBits (fun k => rowPixel src width (i % width) (8 * (i / width) + k)))

/-- The row-from-page transform: bit `b` of byte `j` is the pixel in column
`8*(j mod (width/8)) + b` and row `j / (width/8)` of the page-packed buffer. -/
def row_from_page (width height : Nat) (pg : List Nat) : List Nat :=
  (List.range (width * height / 8)).map
    (fun j => byteOfBits
      (fun b => pagePixel pg width (8 * (j % (width / 8)) + b) (j / (width / 8))))

/-- The number of set bits among the eight bits of a byte. -/
def bitCount (b : Nat) : Nat :=
  ((List.range 8).map (fun k => if b.testBit k then 1 else 0)).sum

/-- The total number of set bits over all bytes of a buffer. -/
def setBits (buf : List Nat) : Nat :=
  (buf.map bitCount).sum

/-- The row-packed buffer of a `w` x `h` bitmap whose only set pixel is `(x, y)`. -/
def onePixelRows (w h x y : Nat) : List Nat :=
  (List.replicate (w * h / 8) 0).set (y * (w / 8) + x / 8) (1 <<< (x % 8))

/-- The loop invariant of the pixel loops of `xbm_to_page_packed`: `d` is the destination
after the pixels in `P` have been visited, `dst0` the destination the caller supplied and
`total` the number of bytes the image occupies. -/
def PixelInv (src dst0 : List Nat) (w total : Nat) (P : Nat → Nat → Prop)
    (d : List Nat) : Prop :=
  d.length = dst0.length ∧
  (∀ i, i < total → ∀ k, (d.getD i 0).testBit k = true ↔
      (k < 8 ∧ P (i % w) (8 * (i / w) + k) ∧ rowPixel src w (i % w) (8 * (i / w) + k) = true)) ∧
  (∀ i, total ≤ i → d[i]? = dst0[i]?)

/-- The pixels `(x, y)` in the order the nested loops of lines 38-51 visit them. -/
def rowMajor (w h : Nat) : List (Nat × Nat) :=
  (List.range h).flatMap (fun y => (List.range w).map (fun x => (x, y)))

/-- The loop body of lines 40-49 applied to each pixel of a list, in order. -/
def visitPixels (src : List Nat) (width : Int) (ps : List (Nat × Nat))
    (dst : List Nat) : Option (List Nat) :=
  ps.foldlM (fun d p => pixelStep src width (Int.tdiv width 8) (p.2 : Int) (p.1 : Int) d) dst

/-- How the buffer and the counter of the byte-reading loop may change: the counter grows up
to `total_bytes`, and the bytes outside `[count0, count)` stay as they were. -/
def ReadStep (total_bytes count0 : Int) (buf0 : List Nat) (count : Int) (buf : List Nat) :
    Prop :=
  count0 ≤ count ∧ count ≤ total_bytes ∧ buf.length = buf0.length ∧
  (∀ i : Nat, count ≤ (i : Int) → buf[i]? = buf0[i]?) ∧
  (∀ i : Nat, (i : Int) < count0 → buf[i]? = buf0[i]?)

/-- The pixels `(x, y)` in column-major order: `x` in the outer loop, `y` in the inner one. -/
def colMajor (w h : Nat) : List (Nat × Nat) :=
  (List.range w).flatMap (fun x => (List.range h).map (fun y => (x, y)))

/-- A variant of lines 38-51 with the loops exchanged: the inner loop, over `y`, for the
column `x`. -/
def colLoop (src : List Nat) (width height bytes_per_row : Int) (x : Int)
    (dst : List Nat) : Option (List Nat) :=
  (List.range height.toNat).foldlM
    (fun d (y : Nat) => pixelStep src width bytes_per_row (y : Int) x d) dst

/-- A variant of `xbm_to_page_packed` that visits the pixels in column-major order (`x` in
the outer loop, `y` in the inner loop) after the same zero initialisation. -/
def xbm_to_page_packed_column_major (dst src : List Nat) (width height : Int) :
    Option (List Nat) := do
  let bytes_per_row := Int.tdiv width 8
  let total_bytes := bytes_per_row * height
  let dst0 ← zeroLoop dst total_bytes
  (List.range width.toNat).foldlM
    (fun d (x : Nat) => colLoop src width height bytes_per_row (x : Int) d) dst0

/-- A variant of `xbm_to_page_packed` that visits the pixels in the order of the list `ps`
after the same zero initialisation. -/
def xbm_to_page_packed_in_order (ps : List (Nat × Nat)) (dst src : List Nat)
    (width height : Int) : Option (List Nat) := do
  let bytes_per_row := Int.tdiv width 8
  let total_bytes := bytes_per_row * height
  let dst0 ← zeroLoop dst total_bytes
  visitPixels src width ps dst0

/-! ## Buffer accesses at natural-number indices -/

theorem readByte_natCast (buf : List Nat) (n : Nat) : readByte buf (n : Int) = buf[n]? := by
  simp [readByte]

theorem writeByte_natCast (buf : List Nat) (n v : Nat) :
    writeByte buf (n : Int) v
      = if n < buf.length then some (buf.set n (v % 256)) else none := by
  simp [writeByte]

theorem src_byte_index_natCast (w x y : Nat) :
    src_byte_index (Int.tdiv (w : Int) 8) (x : Int) (y : Int)
      = ((y * (w / 8) + x / 8 : Nat) : Int) := by
  have h1 : Int.tdiv (w : Int) 8 = ((w / 8 : Nat) : Int) := (Int.ofNat_tdiv w 8).symm
  have h2 : Int.tdiv (x : Int) 8 = ((x / 8 : Nat) : Int) := (Int.ofNat_tdiv x 8).symm
  simp only [src_byte_index, h1, h2]
  push_cast
  ring

theorem dst_byte_index_natCast (w x y : Nat) :
    dst_byte_index (w : Int) (x : Int) (y : Int) = ((y / 8 * w + x : Nat) : Int) := by
  have h1 : Int.tdiv (y : Int) 8 = ((y / 8 : Nat) : Int) := (Int.ofNat_tdiv y 8).symm
  simp only [dst_byte_index, page, h1]
  push_cast
  ring

theorem src_bit_natCast (x : Nat) : (src_bit (x : Int)).toNat = x % 8 := by
  have h : Int.tmod (x : Int) 8 = ((x % 8 : Nat) : Int) := (Int.ofNat_tmod x 8).symm
  simp only [src_bit, h, Int.toNat_ofNat]

theorem bit_within_page_natCast (y : Nat) : (bit_within_page (y : Int)).toNat = y % 8 := by
  have h : Int.tmod (y : Int) 8 = ((y % 8 : Nat) : Int) := (Int.ofNat_tmod y 8).symm
  simp only [bit_within_page, h, Int.toNat_ofNat]

theorem and_one_ne_zero_iff (s n : Nat) : ((s >>> n) &&& 1 ≠ 0) ↔ s.testBit n = true := by
  simp [Nat.testBit, Nat.and_comm]

/-- One iteration of the inner loop, at natural-number coordinates. -/
theorem pixelStep_natCast (src dst : List Nat) (w x y : Nat) :
    pixelStep src (w : Int) (Int.tdiv (w : Int) 8) (y : Int) (x : Int) dst
      = match src[y * (w / 8) + x / 8]? with
        | none => none
        | some s =>
          if s.testBit (x % 8) = true then
            match dst[y / 8 * w + x]? with
            | none => none
            | some d =>
              if y / 8 * w + x < dst.length then
                some (dst.set (y / 8 * w + x) ((d ||| (1 <<< (y % 8))) % 256))
              else none
          else some dst := by
  unfold pixelStep
  rw [src_byte_index_natCast, dst_byte_index_natCast, src_bit_natCast,
    bit_within_page_natCast, readByte_natCast, readByte_natCast]
  cases hs : src[y * (w / 8) + x / 8]? with
  | none => rfl
  | some s =>
    simp only [Option.bind_eq_bind, Option.some_bind, and_one_ne_zero_iff]
    by_cases hb : s.testBit (x % 8) = true
    · simp only [hb, if_true]
      cases hd : dst[y / 8 * w + x]? with
      | none => rfl
      | some d => simp only [Option.some_bind, writeByte_natCast]
    · simp only [hb]
      rfl

/-! ## Bits of a byte -/

theorem testBit_one_shiftLeft (n k : Nat) : (1 <<< n).testBit k = decide (n = k) := by
  rw [Nat.one_shiftLeft, Nat.testBit_two_pow]

theorem testBit_foldl_bits (f : Nat → Bool) (n k : Nat) :
    ((List.range n).foldl (fun acc j => if f j then acc ||| (1 <<< j) else acc) 0).testBit k
      = (decide (k < n) && f k) := by
  induction n with
  | zero => simp
  | succ n ih =>
    rw [List.range_succ, List.foldl_append]
    simp only [List.foldl_cons, List.foldl_nil]
    by_cases hf : f n = true
    · simp only [hf, if_true, Nat.testBit_or, ih, testBit_one_shiftLeft]
      by_cases hk : n = k
      · subst hk
        simp [hf]
      · have h1 : (k < n + 1) ↔ (k < n) := by omega
        simp [hk, h1]
    · have hf' : f n = false := by simpa using hf
      simp only [hf', Bool.false_eq_true, if_false]
      rw [ih]
      by_cases hk : n = k
      · subst hk
        simp [hf']
      · have h1 : (k < n + 1) ↔ (k < n) := by omega
        simp [h1]

theorem testBit_byteOfBits (f : Nat → Bool) (k : Nat) :
    (byteOfBits f).testBit k = (decide (k < 8) && f k) :=
  testBit_foldl_bits f 8 k

theorem testBit_mod_256 (v k : Nat) : (v % 256).testBit k = (decide (k < 8) && v.testBit k) := by
  have h := Nat.testBit_mod_two_pow v 8 k
  simpa using h

theorem testBit_eq_false_of_lt_256 {v k : Nat} (hv : v < 256) (hk : 8 ≤ k) :
    v.testBit k = false := by
  apply Nat.testBit_lt_two_pow
  calc v < 2 ^ 8 := hv
    _ ≤ 2 ^ k := Nat.pow_le_pow_right (by decide) hk

theorem byteOfBits_lt (f : Nat → Bool) : byteOfBits f < 256 := by
  apply Nat.lt_of_testBit 8
  · rw [testBit_byteOfBits]; simp
  · decide
  · intro j hj
    rw [testBit_byteOfBits]
    have h1 : ¬ j < 8 := by omega
    have h2 : (256 : Nat).testBit j = false := by
      have : (256 : Nat) = 2 ^ 8 := by norm_num
      rw [this, Nat.testBit_two_pow]
      simp; omega
    simp [h1, h2]

/-! ## Index arithmetic -/

theorem total_eq_rows {w : Nat} (h : Nat) (hw : w % 8 = 0) : w * h / 8 = w / 8 * h := by
  obtain ⟨bw, rfl⟩ : ∃ bw, w = 8 * bw := ⟨w / 8, by omega⟩
  rw [Nat.mul_assoc, Nat.mul_div_cancel_left _ (by decide : 0 < 8),
    Nat.mul_div_cancel_left _ (by decide : 0 < 8)]

theorem total_eq_pages (w : Nat) {h : Nat} (hh : h % 8 = 0) : w * h / 8 = h / 8 * w := by
  rw [Nat.mul_comm w h, total_eq_rows w hh]

theorem src_index_lt {w h x y : Nat} (hw : w % 8 = 0) (hx : x < w) (hy : y < h) :
    y * (w / 8) + x / 8 < w * h / 8 := by
  rw [total_eq_rows h hw]
  have h1 : x / 8 < w / 8 := by omega
  have h2 : (y + 1) * (w / 8) ≤ h * (w / 8) := Nat.mul_le_mul_right _ hy
  rw [Nat.mul_comm (w / 8) h]
  rw [Nat.add_mul, Nat.one_mul] at h2
  omega

theorem dst_index_lt {w h x y : Nat} (hh : h % 8 = 0) (hx : x < w) (hy : y < h) :
    y / 8 * w + x < w * h / 8 := by
  rw [total_eq_pages w hh]
  have h1 : y / 8 + 1 ≤ h / 8 := by omega
  have h2 : (y / 8 + 1) * w ≤ h / 8 * w := Nat.mul_le_mul_right _ h1
  rw [Nat.add_mul, Nat.one_mul] at h2
  omega

theorem dst_index_mod {w x : Nat} (p : Nat) (hx : x < w) : (p * w + x) % w = x := by
  rw [Nat.add_comm, Nat.add_mul_mod_self_right, Nat.mod_eq_of_lt hx]

theorem dst_index_div {w x : Nat} (p : Nat) (hx : x < w) : (p * w + x) / w = p := by
  have hw : 0 < w := by omega
  rw [Nat.add_comm, Nat.add_mul_div_right _ _ hw, Nat.div_eq_of_lt hx, Nat.zero_add]

theorem row_lt_of_index_lt {w h i k : Nat} (hh : h % 8 = 0) (hi : i < w * h / 8)
    (hk : k < 8) : 8 * (i / w) + k < h := by
  rw [total_eq_pages w hh] at hi
  have h1 : i / w < h / 8 := Nat.div_lt_of_lt_mul (by rw [Nat.mul_comm]; exact hi)
  omega

theorem col_lt_of_index_lt {w h i : Nat} (hi : i < w * h / 8) : i % w < w := by
  apply Nat.mod_lt
  rcases Nat.eq_zero_or_pos w with h0 | h0
  · subst h0; simp at hi
  · exact h0

theorem index_eq_of_pixel {w i k x y : Nat} (hk : k < 8) (hx : i % w = x)
    (hy : 8 * (i / w) + k = y) : i = y / 8 * w + x ∧ k = y % 8 := by
  have h1 : y / 8 = i / w := by omega
  have h2 : k = y % 8 := by omega
  refine ⟨?_, h2⟩
  rw [h1, ← hx, Nat.mul_comm]
  exact (Nat.div_add_mod i w).symm

/-! ## The loops of `xbm_to_page_packed` -/

theorem PixelInv_congr {src dst0 : List Nat} {w total : Nat} {P Q : Nat → Nat → Prop}
    {d : List Nat} (hPQ : ∀ x y, P x y ↔ Q x y) (hd : PixelInv src dst0 w total P d) :
    PixelInv src dst0 w total Q d := by
  obtain ⟨h1, h2, h3⟩ := hd
  refine ⟨h1, ?_, h3⟩
  intro i hi k
  rw [h2 i hi k, hPQ]

/-- One iteration of the inner loop keeps the invariant and adds its pixel. -/
theorem pixelStep_inv {src dst0 d : List Nat} {w h x y : Nat} {P : Nat → Nat → Prop}
    (hw : w % 8 = 0) (hh : h % 8 = 0) (hsrc : w * h / 8 ≤ src.length)
    (hdst : w * h / 8 ≤ dst0.length) (hx : x < w) (hy : y < h)
    (hd : PixelInv src dst0 w (w * h / 8) P d) :
    ∃ d', pixelStep src (w : Int) (Int.tdiv (w : Int) 8) (y : Int) (x : Int) d = some d' ∧
      PixelInv src dst0 w (w * h / 8) (fun a b => P a b ∨ (a = x ∧ b = y)) d' := by
  obtain ⟨hlen, hbits, hrest⟩ := hd
  have hj : y * (w / 8) + x / 8 < src.length := Nat.lt_of_lt_of_le (src_index_lt hw hx hy) hsrc
  have hi : y / 8 * w + x < w * h / 8 := dst_index_lt hh hx hy
  have hi' : y / 8 * w + x < d.length := by rw [hlen]; exact Nat.lt_of_lt_of_le hi hdst
  have hpix : rowPixel src w x y = (src[y * (w / 8) + x / 8]).testBit (x % 8) := by
    simp [rowPixel, List.getD_eq_getElem?_getD, List.getElem?_eq_getElem hj]
  rw [pixelStep_natCast, List.getElem?_eq_getElem hj]
  dsimp only
  by_cases hb : (src[y * (w / 8) + x / 8]).testBit (x % 8) = true
  · rw [if_pos hb, List.getElem?_eq_getElem hi']
    dsimp only
    rw [if_pos hi']
    refine ⟨_, rfl, ?_, ?_, ?_⟩
    · simp [hlen]
    · intro i hit k
      by_cases hii : i = y / 8 * w + x
      · subst hii
        have hg : (d.set (y / 8 * w + x) ((d[y / 8 * w + x] ||| 1 <<< (y % 8)) % 256)).getD
            (y / 8 * w + x) 0 = (d[y / 8 * w + x] ||| 1 <<< (y % 8)) % 256 := by
          simp [List.getD_eq_getElem?_getD, hi']
        have hold := hbits _ hit k
        have hgd : d.getD (y / 8 * w + x) 0 = d[y / 8 * w + x] := by
          simp [List.getD_eq_getElem?_getD, List.getElem?_eq_getElem hi']
        rw [hgd] at hold
        rw [hg, testBit_mod_256, Nat.testBit_or, testBit_one_shiftLeft]
        rw [dst_index_mod _ hx, dst_index_div _ hx] at hold ⊢
        simp only [Bool.and_eq_true, Bool.or_eq_true, decide_eq_true_eq, hold]
        constructor
        · rintro ⟨hk, h1 | h1⟩
          · exact ⟨hk, Or.inl h1.2.1, h1.2.2⟩
          · have hyk : 8 * (y / 8) + k = y := by omega
            refine ⟨hk, Or.inr ⟨trivial, hyk⟩, ?_⟩
            rw [hyk, hpix]; exact hb
        · rintro ⟨hk, h1 | h1, h2⟩
          · exact ⟨hk, Or.inl ⟨hk, h1, h2⟩⟩
          · refine ⟨hk, Or.inr ?_⟩
            omega
      · have hg : (d.set (y / 8 * w + x) ((d[y / 8 * w + x] ||| 1 <<< (y % 8)) % 256)).getD i 0
            = d.getD i 0 := by
          simp [List.getD_eq_getElem?_getD, List.getElem?_set, Ne.symm hii]
        rw [hg, hbits i hit k]
        constructor
        · rintro ⟨hk, h1, h2⟩
          exact ⟨hk, Or.inl h1, h2⟩
        · rintro ⟨hk, h1 | h1, h2⟩
          · exact ⟨hk, h1, h2⟩
          · exact absurd (index_eq_of_pixel hk h1.1 h1.2).1 hii
    · intro i hit
      have hne : y / 8 * w + x ≠ i := by omega
      rw [List.getElem?_set_ne hne]
      exact hrest i hit
  · rw [if_neg hb]
    refine ⟨d, rfl, hlen, ?_, hrest⟩
    intro i hit k
    rw [hbits i hit k]
    constructor
    · rintro ⟨hk, h1, h2⟩
      exact ⟨hk, Or.inl h1, h2⟩
    · rintro ⟨hk, h1 | h1, h2⟩
      · exact ⟨hk, h1, h2⟩
      · exfalso
        rw [h1.1, h1.2, hpix] at h2
        exact hb h2

theorem visitPixels_nil (src : List Nat) (width : Int) (d : List Nat) :
    visitPixels src width [] d = some d := rfl

theorem visitPixels_cons (src : List Nat) (width : Int) (p : Nat × Nat)
    (ps : List (Nat × Nat)) (d : List Nat) :
    visitPixels src width (p :: ps) d
      = (pixelStep src width (Int.tdiv width 8) (p.2 : Int) (p.1 : Int) d).bind
          (visitPixels src width ps) := by
  simp only [visitPixels, List.foldlM_cons]
  rfl

theorem visitPixels_append (src : List Nat) (width : Int) (ps qs : List (Nat × Nat))
    (d : List Nat) :
    visitPixels src width (ps ++ qs) d
      = (visitPixels src width ps d).bind (visitPixels src width qs) := by
  simp only [visitPixels, List.foldlM_append]
  rfl

theorem rowLoop_eq_visitPixels (src : List Nat) (w y : Nat) (d : List Nat) :
    rowLoop src (w : Int) (Int.tdiv (w : Int) 8) (y : Int) d
      = visitPixels src (w : Int) ((List.range w).map (fun x => (x, y))) d := by
  simp only [rowLoop, visitPixels, List.foldlM_map, Int.toNat_ofNat]

theorem rows_eq_visitPixels (src : List Nat) (w : Nat) (ys : List Nat) (d : List Nat) :
    ys.foldlM (fun d (y : Nat) => rowLoop src (w : Int) (Int.tdiv (w : Int) 8) (y : Int) d) d
      = visitPixels src (w : Int)
          (ys.flatMap (fun y => (List.range w).map (fun x => (x, y)))) d := by
  induction ys generalizing d with
  | nil => rfl
  | cons y ys ih =>
    rw [List.foldlM_cons, List.flatMap_cons, visitPixels_append, rowLoop_eq_visitPixels]
    cases visitPixels src (w : Int) ((List.range w).map (fun x => (x, y))) d with
    | none => rfl
    | some d1 => exact ih d1

/-- The nested loops visit the pixels in row-major order. -/
theorem pixelLoop_eq_visitPixels (src : List Nat) (w h : Nat) (d : List Nat) :
    pixelLoop src (w : Int) (h : Int) (Int.tdiv (w : Int) 8) d
      = visitPixels src (w : Int) (rowMajor w h) d := by
  simp only [pixelLoop, rowMajor, Int.toNat_ofNat]
  exact rows_eq_visitPixels src w (List.range h) d

theorem mem_rowMajor {w h : Nat} {p : Nat × Nat} :
    p ∈ rowMajor w h ↔ p.1 < w ∧ p.2 < h := by
  obtain ⟨x, y⟩ := p
  simp only [rowMajor, List.mem_flatMap, List.mem_map, List.mem_range, Prod.mk.injEq]
  constructor
  · rintro ⟨b, hb, a, ha, rfl, rfl⟩
    exact ⟨ha, hb⟩
  · rintro ⟨hx, hy⟩
    exact ⟨y, hy, x, hx, rfl, rfl⟩

/-- Visiting a list of in-range pixels, in any order, keeps the invariant and adds them. -/
theorem visitPixels_inv {src dst0 : List Nat} {w h : Nat}
    (hw : w % 8 = 0) (hh : h % 8 = 0) (hsrc : w * h / 8 ≤ src.length)
    (hdst : w * h / 8 ≤ dst0.length) (ps : List (Nat × Nat))
    (hps : ∀ p ∈ ps, p.1 < w ∧ p.2 < h) (P : Nat → Nat → Prop) (d : List Nat)
    (hd : PixelInv src dst0 w (w * h / 8) P d) :
    ∃ d', visitPixels src (w : Int) ps d = some d' ∧
      PixelInv src dst0 w (w * h / 8) (fun a b => P a b ∨ (a, b) ∈ ps) d' := by
  induction ps generalizing P d with
  | nil =>
    refine ⟨d, rfl, PixelInv_congr ?_ hd⟩
    intro a b
    simp
  | cons p ps ih =>
    have hp := hps p (List.mem_cons_self p ps)
    obtain ⟨d1, hstep, hinv1⟩ := pixelStep_inv hw hh hsrc hdst hp.1 hp.2 hd
    obtain ⟨d2, hrun, hinv2⟩ :=
      ih (fun q hq => hps q (List.mem_cons_of_mem p hq)) _ d1 hinv1
    refine ⟨d2, ?_, PixelInv_congr ?_ hinv2⟩
    · rw [visitPixels_cons, hstep]
      exact hrun
    · intro a b
      simp only [List.mem_cons, Prod.ext_iff]
      tauto

theorem set_replicate_append_drop (dst : List Nat) (n : Nat) (hn : n < dst.length) :
    (List.replicate n 0 ++ dst.drop n).set n 0 = List.replicate (n + 1) 0 ++ dst.drop (n + 1) := by
  apply List.ext_getElem?
  intro i
  rw [List.getElem?_set]
  by_cases h1 : n = i
  · subst h1
    have h2 : n < (List.replicate n 0 ++ dst.drop n).length := by
      simp only [List.length_append, List.length_replicate, List.length_drop]; omega
    rw [if_pos rfl, if_pos h2, List.getElem?_append_left (by simp)]
    simp
  · rw [if_neg h1]
    by_cases h3 : i < n
    · rw [List.getElem?_append_left (by simpa using h3),
        List.getElem?_append_left (by simp; omega)]
      simp [List.getElem?_replicate, h3, Nat.lt_succ_of_lt h3]
    · have h4 : n + 1 ≤ i := by omega
      rw [List.getElem?_append_right (by simp; omega),
        List.getElem?_append_right (by simp; omega)]
      simp only [List.length_replicate, List.getElem?_drop]
      congr 1
      omega

/-- Lines 34-36 clear the first `n` bytes of the destination and leave the rest. -/
theorem zeroLoop_eq (dst : List Nat) (n : Nat) (hn : n ≤ dst.length) :
    zeroLoop dst (n : Int) = some (List.replicate n 0 ++ dst.drop n) := by
  simp only [zeroLoop, Int.toNat_ofNat]
  induction n with
  | zero => simp
  | succ n ih =>
    have hn' : n < dst.length := hn
    rw [List.range_succ, List.foldlM_append, ih (Nat.le_of_lt hn')]
    simp only [List.foldlM_cons, List.foldlM_nil]
    have hlen : n < (List.replicate n 0 ++ dst.drop n).length := by
      simp only [List.length_append, List.length_replicate, List.length_drop]; omega
    show (writeByte (List.replicate n 0 ++ dst.drop n) (n : Int) 0).bind some = _
    rw [writeByte_natCast, if_pos hlen]
    show some _ = _
    rw [Nat.zero_mod, set_replicate_append_drop dst n hn']

theorem PixelInv_zero (src dst : List Nat) (w n : Nat) (hn : n ≤ dst.length) :
    PixelInv src dst w n (fun _ _ => False) (List.replicate n 0 ++ dst.drop n) := by
  refine ⟨?_, ?_, ?_⟩
  · simp only [List.length_append, List.length_replicate, List.length_drop]; omega
  · intro i hi k
    have h0 : (List.replicate n 0 ++ dst.drop n).getD i 0 = 0 := by
      rw [List.getD_eq_getElem?_getD, List.getElem?_append_left (by simpa using hi)]
      simp [List.getElem?_replicate, hi]
    rw [h0]
    simp
  · intro i hi
    rw [List.getElem?_append_right (by simpa using hi)]
    simp only [List.length_replicate, List.getElem?_drop]
    congr 1
    omega

theorem length_pagePacked (w h : Nat) (src : List Nat) :
    (pagePacked w h src).length = w * h / 8 := by
  simp [pagePacked]

/-- Once every pixel has been visited the destination is the page-packed image, followed by
the bytes of the caller's buffer that lie beyond it. -/
theorem PixelInv_final {src dst0 d : List Nat} {w h : Nat} (hh : h % 8 = 0)
    (hdst : w * h / 8 ≤ dst0.length)
    (hd : PixelInv src dst0 w (w * h / 8) (fun a b => a < w ∧ b < h) d) :
    d = pagePacked w h src ++ dst0.drop (w * h / 8) := by
  obtain ⟨hlen, hbits, hrest⟩ := hd
  apply List.ext_getElem?
  intro i
  by_cases hi : i < w * h / 8
  · have hid : i < d.length := by omega
    rw [List.getElem?_append_left (by rw [length_pagePacked]; exact hi)]
    have hgd : d[i]? = some (d.getD i 0) := by
      simp [List.getD_eq_getElem?_getD, List.getElem?_eq_getElem hid]
    rw [hgd, pagePacked, List.getElem?_map, List.getElem?_range hi, Option.map_some']
    congr 1
    apply Nat.eq_of_testBit_eq
    intro k
    rw [Bool.eq_iff_iff, hbits i hi k, testBit_byteOfBits]
    simp only [Bool.and_eq_true, decide_eq_true_eq]
    constructor
    · rintro ⟨hk, _, h2⟩
      exact ⟨hk, h2⟩
    · rintro ⟨hk, h2⟩
      exact ⟨hk, ⟨col_lt_of_index_lt hi, row_lt_of_index_lt hh hi hk⟩, h2⟩
  · have hi' : w * h / 8 ≤ i := by omega
    rw [hrest i hi', List.getElem?_append_right (by rw [length_pagePacked]; exact hi')]
    rw [length_pagePacked, List.getElem?_drop]
    congr 1
    omega

/-- Visiting every pixel once, in any order, after the destination has been cleared, gives
the page-packed image. -/
theorem visitPixels_eq_pagePacked {src dst : List Nat} {w h : Nat}
    (hw : w % 8 = 0) (hh : h % 8 = 0) (hsrc : w * h / 8 ≤ src.length)
    (hdst : w * h / 8 ≤ dst.length) (ps : List (Nat × Nat))
    (hps : ∀ p, p ∈ ps ↔ p.1 < w ∧ p.2 < h) :
    visitPixels src (w : Int) ps (List.replicate (w * h / 8) 0 ++ dst.drop (w * h / 8))
      = some (pagePacked w h src ++ dst.drop (w * h / 8)) := by
  obtain ⟨d, hrun, hinv⟩ := visitPixels_inv hw hh hsrc hdst ps (fun p hp => (hps p).1 hp)
    (fun _ _ => False) _ (PixelInv_zero src dst w (w * h / 8) hdst)
  rw [hrun]
  congr 1
  apply PixelInv_final hh hdst
  apply PixelInv_congr ?_ hinv
  intro a b
  simp only [false_or]
  exact hps (a, b)

theorem total_bytes_natCast {w : Nat} (h : Nat) (hw : w % 8 = 0) :
    Int.tdiv (w : Int) 8 * (h : Int) = ((w * h / 8 : Nat) : Int) := by
  have h1 : Int.tdiv (w : Int) 8 = ((w / 8 : Nat) : Int) := (Int.ofNat_tdiv w 8).symm
  rw [h1, total_eq_rows h hw]
  push_cast
  rfl

/-- The closed form of `xbm_to_page_packed` on dimensions that are multiples of 8. -/
theorem xbm_to_page_packed_eq {src dst : List Nat} {w h : Nat}
    (hw : w % 8 = 0) (hh : h % 8 = 0) (hsrc : w * h / 8 ≤ src.length)
    (hdst : w * h / 8 ≤ dst.length) :
    xbm_to_page_packed dst src (w : Int) (h : Int)
      = some (pagePacked w h src ++ dst.drop (w * h / 8)) := by
  unfold xbm_to_page_packed
  dsimp only
  rw [total_bytes_natCast h hw, zeroLoop_eq dst _ hdst]
  show pixelLoop src (w : Int) (h : Int) (Int.tdiv (w : Int) 8) _ = _
  rw [pixelLoop_eq_visitPixels]
  exact visitPixels_eq_pagePacked hw hh hsrc hdst (rowMajor w h) (fun p => mem_rowMajor)

/-! ## The page-packed image -/

theorem getElem?_pagePacked {w h i : Nat} (src : List Nat) (hi : i < w * h / 8) :
    (pagePacked w h src)[i]?
      = some (byteOfBits (fun k => rowPixel src w (i % w) (8 * (i / w) + k))) := by
  rw [pagePacked, List.getElem?_map, List.getElem?_range hi, Option.map_some']

/-- The pixel `(x, y)` of the page-packed image is the pixel `(x, y)` of the source. -/
theorem pagePixel_pagePacked {w h x y : Nat} (src rest : List Nat) (hh : h % 8 = 0)
    (hx : x < w) (hy : y < h) :
    pagePixel (pagePacked w h src ++ rest) w x y = rowPixel src w x y := by
  have hi : y / 8 * w + x < w * h / 8 := dst_index_lt hh hx hy
  unfold pagePixel
  rw [List.getD_eq_getElem?_getD,
    List.getElem?_append_left (by rw [length_pagePacked]; exact hi),
    getElem?_pagePacked src hi, Option.getD_some, testBit_byteOfBits,
    dst_index_mod _ hx, dst_index_div _ hx]
  have h1 : y % 8 < 8 := Nat.mod_lt _ (by decide)
  have h2 : 8 * (y / 8) + y % 8 = y := Nat.div_add_mod y 8
  simp [h1, h2]

theorem byteOfBits_testBit {v : Nat} (hv : v < 256) : byteOfBits (fun b => v.testBit b) = v := by
  apply Nat.eq_of_testBit_eq
  intro k
  rw [testBit_byteOfBits]
  by_cases hk : k < 8
  · simp [hk]
  · rw [testBit_eq_false_of_lt_256 hv (by omega)]
    simp [hk]

theorem byteOfBits_congr {f g : Nat → Bool} (hfg : ∀ b, b < 8 → f b = g b) :
    byteOfBits f = byteOfBits g := by
  apply Nat.eq_of_testBit_eq
  intro k
  rw [testBit_byteOfBits, testBit_byteOfBits]
  by_cases hk : k < 8
  · simp [hk, hfg k hk]
  · simp [hk]

theorem row_index_of_byte {w j b : Nat} (hw : w % 8 = 0) (hb : b < 8) (hw0 : 0 < w) :
    8 * (j % (w / 8)) + b < w ∧
      j / (w / 8) * (w / 8) + (8 * (j % (w / 8)) + b) / 8 = j ∧
      (8 * (j % (w / 8)) + b) % 8 = b := by
  have hq : 0 < w / 8 := by omega
  have h1 : j % (w / 8) < w / 8 := Nat.mod_lt _ hq
  have h2 : (8 * (j % (w / 8)) + b) / 8 = j % (w / 8) := by omega
  refine ⟨by omega, ?_, by omega⟩
  rw [h2, Nat.mul_comm]
  exact Nat.div_add_mod j (w / 8)

theorem row_lt_of_byte {w h j : Nat} (hw : w % 8 = 0) (hj : j < w * h / 8) :
    j / (w / 8) < h := by
  rw [total_eq_rows h hw] at hj
  exact Nat.div_lt_of_lt_mul hj

/-- The row-from-page transform undoes the page packing. -/
theorem row_from_page_pagePacked {w h : Nat} {src : List Nat} (rest : List Nat)
    (hw : w % 8 = 0) (hh : h % 8 = 0) (hsrc : src.length = w * h / 8)
    (hbytes : ∀ b ∈ src, b < 256) :
    row_from_page w h (pagePacked w h src ++ rest) = src := by
  apply List.ext_getElem?
  intro j
  by_cases hj : j < w * h / 8
  · have hw0 : 0 < w := by
      rcases Nat.eq_zero_or_pos w with h0 | h0
      · subst h0; simp at hj
      · exact h0
    have hjs : j < src.length := by omega
    rw [row_from_page, List.getElem?_map, List.getElem?_range hj, Option.map_some',
      List.getElem?_eq_getElem hjs]
    congr 1
    rw [← byteOfBits_testBit (hbytes _ (List.getElem_mem hjs))]
    apply byteOfBits_congr
    intro b hb
    obtain ⟨h1, h2, h3⟩ := @row_index_of_byte w j b hw hb hw0
    rw [pagePixel_pagePacked src rest hh h1 (row_lt_of_byte hw hj)]
    simp [rowPixel, h2, h3, List.getElem?_eq_getElem hjs]
  · have h1 : (row_from_page w h (pagePacked w h src ++ rest)).length ≤ j := by
      simp only [row_from_page, List.length_map, List.length_range]; omega
    rw [List.getElem?_eq_none h1, List.getElem?_eq_none (by omega)]

theorem rowPixel_replicate_zero (n w x y : Nat) :
    rowPixel (List.replicate n 0) w x y = false := by
  simp [rowPixel, List.getElem?_replicate]
  split <;> simp

theorem byteOfBits_false : byteOfBits (fun _ => false) = 0 := by
  apply Nat.eq_of_testBit_eq
  intro k
  rw [testBit_byteOfBits]
  simp

/-- The page-packed image of an all-zero buffer is all zero. -/
theorem pagePacked_replicate_zero (w h n : Nat) :
    pagePacked w h (List.replicate n 0) = List.replicate (w * h / 8) 0 := by
  apply List.ext_getElem?
  intro i
  by_cases hi : i < w * h / 8
  · rw [getElem?_pagePacked _ hi, List.getElem?_replicate, if_pos hi]
    congr 1
    have hfun : (fun k => rowPixel (List.replicate n 0) w (i % w) (8 * (i / w) + k))
        = fun _ => false := by
      funext k
      exact rowPixel_replicate_zero n w _ _
    rw [hfun, byteOfBits_false]
  · rw [List.getElem?_eq_none (by rw [length_pagePacked]; omega),
      List.getElem?_eq_none (by rw [List.length_replicate]; omega)]

/-! ## Counting set bits -/

theorem sum_map_range (g : Nat → Nat) (n : Nat) :
    ((List.range n).map g).sum = ∑ k ∈ Finset.range n, g k := by
  induction n with
  | zero => simp
  | succ n ih =>
    rw [List.range_succ, List.map_append, List.sum_append, ih, Finset.sum_range_succ]
    simp

theorem sum_map_getD (l : List Nat) (f : Nat → Nat) :
    (l.map f).sum = ∑ i ∈ Finset.range l.length, f (l.getD i 0) := by
  induction l with
  | nil => simp
  | cons a l ih =>
    rw [List.map_cons, List.sum_cons, List.length_cons, Finset.sum_range_succ', ih]
    simp [Nat.add_comm]

theorem setBits_eq_sum (buf : List Nat) :
    setBits buf = ∑ p ∈ Finset.range buf.length ×ˢ Finset.range 8,
      if (buf.getD p.1 0).testBit p.2 = true then 1 else 0 := by
  rw [setBits, sum_map_getD, Finset.sum_product]
  apply Finset.sum_congr rfl
  intro i _
  rw [bitCount, sum_map_range]

/-- Summing over the bits of the page-packed layout is summing over the pixels. -/
theorem sum_page_bits {w h : Nat} (hh : h % 8 = 0) (F : Nat → Nat → Nat) :
    ∑ p ∈ Finset.range (w * h / 8) ×ˢ Finset.range 8, F (p.1 % w) (8 * (p.1 / w) + p.2)
      = ∑ q ∈ Finset.range w ×ˢ Finset.range h, F q.1 q.2 := by
  apply Finset.sum_nbij' (fun p => (p.1 % w, 8 * (p.1 / w) + p.2))
    (fun q => (q.2 / 8 * w + q.1, q.2 % 8))
  · rintro ⟨i, k⟩ hp
    simp only [Finset.mem_product, Finset.mem_range] at hp ⊢
    exact ⟨col_lt_of_index_lt hp.1, row_lt_of_index_lt hh hp.1 hp.2⟩
  · rintro ⟨x, y⟩ hq
    simp only [Finset.mem_product, Finset.mem_range] at hq ⊢
    exact ⟨dst_index_lt hh hq.1 hq.2, Nat.mod_lt _ (by decide)⟩
  · rintro ⟨i, k⟩ hp
    simp only [Finset.mem_product, Finset.mem_range] at hp
    obtain ⟨h1, h2⟩ := @index_eq_of_pixel w i k _ _ hp.2 rfl rfl
    simp only [Prod.mk.injEq]
    exact ⟨h1.symm, h2.symm⟩
  · rintro ⟨x, y⟩ hq
    simp only [Finset.mem_product, Finset.mem_range] at hq
    simp only [Prod.mk.injEq]
    rw [dst_index_mod _ hq.1, dst_index_div _ hq.1]
    exact ⟨rfl, Nat.div_add_mod y 8⟩
  · intro p _
    rfl

theorem byte_index_of_pixel {w x : Nat} (y : Nat) (hw : w % 8 = 0) (hx : x < w) :
    (y * (w / 8) + x / 8) % (w / 8) = x / 8 ∧ (y * (w / 8) + x / 8) / (w / 8) = y := by
  have h1 : x / 8 < w / 8 := by omega
  exact ⟨dst_index_mod y h1, dst_index_div y h1⟩

/-- Summing over the bits of the row-packed layout is summing over the pixels. -/
theorem sum_row_bits {w h : Nat} (hw : w % 8 = 0) (F : Nat → Nat → Nat) :
    ∑ p ∈ Finset.range (w * h / 8) ×ˢ Finset.range 8,
        F (8 * (p.1 % (w / 8)) + p.2) (p.1 / (w / 8))
      = ∑ q ∈ Finset.range w ×ˢ Finset.range h, F q.1 q.2 := by
  apply Finset.sum_nbij' (fun p => (8 * (p.1 % (w / 8)) + p.2, p.1 / (w / 8)))
    (fun q => (q.2 * (w / 8) + q.1 / 8, q.1 % 8))
  · rintro ⟨j, b⟩ hp
    simp only [Finset.mem_product, Finset.mem_range] at hp ⊢
    have hw0 : 0 < w := by
      rcases Nat.eq_zero_or_pos w with h0 | h0
      · subst h0; simp at hp
      · exact h0
    exact ⟨(@row_index_of_byte w j b hw hp.2 hw0).1, row_lt_of_byte hw hp.1⟩
  · rintro ⟨x, y⟩ hq
    simp only [Finset.mem_product, Finset.mem_range] at hq ⊢
    exact ⟨src_index_lt hw hq.1 hq.2, Nat.mod_lt _ (by decide)⟩
  · rintro ⟨j, b⟩ hp
    simp only [Finset.mem_product, Finset.mem_range] at hp
    have hw0 : 0 < w := by
      rcases Nat.eq_zero_or_pos w with h0 | h0
      · subst h0; simp at hp
      · exact h0
    obtain ⟨_, h2, h3⟩ := @row_index_of_byte w j b hw hp.2 hw0
    simp only [Prod.mk.injEq]
    exact ⟨h2, h3⟩
  · rintro ⟨x, y⟩ hq
    simp only [Finset.mem_product, Finset.mem_range] at hq
    obtain ⟨h1, h2⟩ := byte_index_of_pixel y hw hq.1
    simp only [Prod.mk.injEq]
    rw [h1, h2]
    exact ⟨Nat.div_add_mod x 8, rfl⟩
  · intro p _
    rfl

/-- The set bits of a row-packed buffer, counted pixel by pixel. -/
theorem setBits_rows {w h : Nat} {src : List Nat} (hw : w % 8 = 0)
    (hsrc : src.length = w * h / 8) :
    setBits src = ∑ q ∈ Finset.range w ×ˢ Finset.range h,
      if rowPixel src w q.1 q.2 = true then 1 else 0 := by
  rw [setBits_eq_sum, hsrc,
    ← sum_row_bits hw (fun x y => if rowPixel src w x y = true then 1 else 0)]
  apply Finset.sum_congr rfl
  rintro ⟨j, b⟩ hp
  simp only [Finset.mem_product, Finset.mem_range] at hp
  have hw0 : 0 < w := by
    rcases Nat.eq_zero_or_pos w with h0 | h0
    · subst h0; simp at hp
    · exact h0
  obtain ⟨_, h2, h3⟩ := @row_index_of_byte w j b hw hp.2 hw0
  simp only [rowPixel, h2, h3]

/-- The set bits of the page-packed image, counted pixel by pixel. -/
theorem setBits_pagePacked {w h : Nat} (src : List Nat) (hh : h % 8 = 0) :
    setBits (pagePacked w h src) = ∑ q ∈ Finset.range w ×ˢ Finset.range h,
      if rowPixel src w q.1 q.2 = true then 1 else 0 := by
  rw [setBits_eq_sum, length_pagePacked,
    ← sum_page_bits hh (fun x y => if rowPixel src w x y = true then 1 else 0)]
  apply Finset.sum_congr rfl
  rintro ⟨i, k⟩ hp
  simp only [Finset.mem_product, Finset.mem_range] at hp
  simp only [List.getD_eq_getElem?_getD, getElem?_pagePacked src hp.1, Option.getD_some,
    testBit_byteOfBits, hp.2, decide_True, Bool.true_and]

/-! ## Dimensions that are not multiples of 8 -/

theorem src_index_lt_of_height {w h x y : Nat} (hh : h % 8 = 0) (hx : x < w) (hy : y < h) :
    y * (w / 8) + x / 8 < w * h / 8 := by
  rw [total_eq_pages w hh]
  have h1 : (y + 1) * (w / 8) ≤ 8 * (h / 8) * (w / 8) :=
    Nat.mul_le_mul_right _ (by omega)
  have h2 : 8 * (h / 8) * (w / 8) = h / 8 * (8 * (w / 8)) := by ring
  rw [Nat.add_mul, Nat.one_mul, h2] at h1
  by_cases hw : w % 8 = 0
  · have h3 : 8 * (w / 8) = w := by omega
    have h4 : x / 8 < w / 8 := by omega
    rw [h3] at h1
    omega
  · have h3 : h / 8 * (8 * (w / 8) + 1) ≤ h / 8 * w := Nat.mul_le_mul_left _ (by omega)
    have h4 : x / 8 ≤ w / 8 := by omega
    have h5 : 1 ≤ h / 8 := by omega
    rw [Nat.mul_add, Nat.mul_one] at h3
    omega

theorem pixelStep_some {src d : List Nat} {w x y : Nat}
    (hj : y * (w / 8) + x / 8 < src.length) (hi : y / 8 * w + x < d.length) :
    ∃ d', pixelStep src (w : Int) (Int.tdiv (w : Int) 8) (y : Int) (x : Int) d = some d' ∧
      d'.length = d.length := by
  rw [pixelStep_natCast, List.getElem?_eq_getElem hj]
  dsimp only
  by_cases hb : (src[y * (w / 8) + x / 8]).testBit (x % 8) = true
  · rw [if_pos hb, List.getElem?_eq_getElem hi]
    dsimp only
    rw [if_pos hi]
    exact ⟨_, rfl, by simp⟩
  · rw [if_neg hb]
    exact ⟨d, rfl, rfl⟩

theorem visitPixels_some {src : List Nat} {w n : Nat} (ps : List (Nat × Nat))
    (hps : ∀ p ∈ ps, p.2 * (w / 8) + p.1 / 8 < src.length ∧ p.2 / 8 * w + p.1 < n)
    (d : List Nat) (hd : d.length = n) :
    ∃ d', visitPixels src (w : Int) ps d = some d' ∧ d'.length = n := by
  induction ps generalizing d with
  | nil => exact ⟨d, rfl, hd⟩
  | cons p ps ih =>
    have hp := hps p (List.mem_cons_self p ps)
    obtain ⟨d1, hstep, hlen1⟩ := @pixelStep_some src d w p.1 p.2 hp.1 (by rw [hd]; exact hp.2)
    obtain ⟨d2, hrun, hlen2⟩ :=
      ih (fun q hq => hps q (List.mem_cons_of_mem p hq)) d1 (by rw [hlen1, hd])
    refine ⟨d2, ?_, hlen2⟩
    rw [visitPixels_cons, hstep]
    exact hrun

/-- The function returns normally for every width when the height is a multiple of 8. -/
theorem xbm_to_page_packed_some {src dst : List Nat} {w h : Nat} (hh : h % 8 = 0)
    (hsrc : src.length = w * h / 8) (hdst : dst.length = w * h / 8) :
    ∃ out, xbm_to_page_packed dst src (w : Int) (h : Int) = some out ∧
      out.length = w * h / 8 := by
  have h1 : Int.tdiv (w : Int) 8 * (h : Int) = ((w / 8 * h : Nat) : Int) := by
    have : Int.tdiv (w : Int) 8 = ((w / 8 : Nat) : Int) := (Int.ofNat_tdiv w 8).symm
    rw [this]
    push_cast
    rfl
  have h2 : w / 8 * h ≤ dst.length := by
    rw [hdst, Nat.le_div_iff_mul_le (by decide : 0 < 8)]
    have : w / 8 * h * 8 = 8 * (w / 8) * h := by ring
    rw [this]
    exact Nat.mul_le_mul_right _ (by omega)
  unfold xbm_to_page_packed
  dsimp only
  rw [h1, zeroLoop_eq dst _ h2]
  show ∃ out, pixelLoop src (w : Int) (h : Int) (Int.tdiv (w : Int) 8) _ = some out ∧ _
  rw [pixelLoop_eq_visitPixels]
  apply visitPixels_some
  · intro p hp
    rw [mem_rowMajor] at hp
    rw [hsrc]
    exact ⟨src_index_lt_of_height hh hp.1 hp.2, dst_index_lt hh hp.1 hp.2⟩
  · simp only [List.length_append, List.length_replicate, List.length_drop]
    omega

/-! ## The dimension check of `main` -/

theorem readHeader_width (libc : Libc) (lines : List (List Char))
    (hno : ∀ l ∈ lines, ∀ n v, libc.sscanf_width l ≠ WidthScan.full n v)
    (width height : Int) (name : List Char) :
    (readHeader libc lines width height name).width = width := by
  induction lines generalizing height name with
  | nil => rfl
  | cons l ls ih =>
    have hl := hno l (List.mem_cons_self l ls)
    have hls : ∀ l' ∈ ls, ∀ n v, libc.sscanf_width l' ≠ WidthScan.full n v :=
      fun l' h' => hno l' (List.mem_cons_of_mem l h')
    unfold readHeader
    split
    · next n v hfull => exact absurd hfull (hl n v)
    · split
      · exact ih hls _ _
      · split
        · rfl
        · exact ih hls _ _
    · split
      · exact ih hls _ _
      · split
        · rfl
        · exact ih hls _ _

theorem readHeader_height (libc : Libc) (lines : List (List Char))
    (hno : ∀ l ∈ lines, libc.sscanf_height l = none)
    (width height : Int) (name : List Char) :
    (readHeader libc lines width height name).height = height := by
  induction lines generalizing width name with
  | nil => rfl
  | cons l ls ih =>
    have hl := hno l (List.mem_cons_self l ls)
    have hls : ∀ l' ∈ ls, libc.sscanf_height l' = none :=
      fun l' h' => hno l' (List.mem_cons_of_mem l h')
    unfold readHeader
    rw [hl]
    split
    · exact ih hls _ _
    · dsimp only
      split
      · rfl
      · exact ih hls _ _
    · dsimp only
      split
      · rfl
      · exact ih hls _ _

theorem convert_trace_head (libc : Libc) (fuel : Nat) (hd : Header) :
    (convert libc fuel hd).trace.head?
      = some (Event.calloc (Int.tdiv (hd.width * hd.height) 8)) := by
  unfold convert
  dsimp only
  split
  · rfl
  · split
    · rfl
    · rfl
    · split
      · rfl
      · split
        · rfl
        · split <;> rfl

theorem convert_no_failedDims (libc : Libc) (fuel : Nat) (hd : Header) :
    Event.failedDims ∉ (convert libc fuel hd).trace := by
  unfold convert
  dsimp only
  split
  · simp [Run.trace]
  · split
    · simp [Run.trace]
    · simp [Run.trace]
    · split
      · simp only [Run.trace]
        split <;> simp
      · split
        · simp only [Run.trace]
          split <;> simp
        · split
          · simp only [Run.trace]
            split <;> simp
          · simp only [Run.trace]
            split <;> simp

/-! ## The byte-reading loop of `main` -/

/-- The loop of lines 100-116 never moves past a closing brace: while `count` is below
`total_bytes` it runs for ever. -/
theorem scanLine_stuck (libc : Libc) (total_bytes : Int) (rest : List Char) (count : Int)
    (buf : List Nat) (hsp : libc.isspace '\x7d' = false) (hc : count < total_bytes) :
    ∀ fuel, scanLine libc total_bytes fuel ('\x7d' :: rest) count buf = .error .fuel := by
  intro fuel
  induction fuel with
  | zero => rfl
  | succ n ih =>
    unfold scanLine
    simp [hc, skipSpace, hsp, storeHex, skipToken]
    exact ih

/-- The data line of `fileShort8x8` keeps the loop of lines 100-116 running for ever. -/
theorem scanLine_fileShort8x8 (fuel : Nat) :
    scanLine xbmLibc 8 fuel "   0x01, 0x02, 0x04, 0x08 \x7d;\n".toList 0 (List.replicate 8 0)
      = .error .fuel := by
  rcases fuel with _ | fuel
  · rfl
  have h1 : scanLine xbmLibc 8 (fuel + 1) "   0x01, 0x02, 0x04, 0x08 \x7d;\n".toList 0
      (List.replicate 8 0)
      = scanLine xbmLibc 8 fuel " 0x02, 0x04, 0x08 \x7d;\n".toList 1 [1, 0, 0, 0, 0, 0, 0, 0] := by
    rfl
  rw [h1]
  rcases fuel with _ | fuel
  · rfl
  have h2 : scanLine xbmLibc 8 (fuel + 1) " 0x02, 0x04, 0x08 \x7d;\n".toList 1
      [1, 0, 0, 0, 0, 0, 0, 0]
      = scanLine xbmLibc 8 fuel " 0x04, 0x08 \x7d;\n".toList 2 [1, 2, 0, 0, 0, 0, 0, 0] := by
    rfl
  rw [h2]
  rcases fuel with _ | fuel
  · rfl
  have h3 : scanLine xbmLibc 8 (fuel + 1) " 0x04, 0x08 \x7d;\n".toList 2
      [1, 2, 0, 0, 0, 0, 0, 0]
      = scanLine xbmLibc 8 fuel " 0x08 \x7d;\n".toList 3 [1, 2, 4, 0, 0, 0, 0, 0] := by
    rfl
  rw [h3]
  rcases fuel with _ | fuel
  · rfl
  have h4 : scanLine xbmLibc 8 (fuel + 1) " 0x08 \x7d;\n".toList 3
      [1, 2, 4, 0, 0, 0, 0, 0]
      = scanLine xbmLibc 8 fuel "\x7d;\n".toList 4 [1, 2, 4, 8, 0, 0, 0, 0] := by
    rfl
  rw [h4]
  exact scanLine_stuck xbmLibc 8 _ 4 _ (by decide) (by decide) fuel

theorem ReadStep_refl {total_bytes count : Int} (buf : List Nat) (hc : count ≤ total_bytes) :
    ReadStep total_bytes count buf count buf :=
  ⟨Int.le_refl _, hc, rfl, fun _ _ => rfl, fun _ _ => rfl⟩

theorem ReadStep_trans {total_bytes c0 c1 c2 : Int} {b0 b1 b2 : List Nat}
    (h1 : ReadStep total_bytes c0 b0 c1 b1) (h2 : ReadStep total_bytes c1 b1 c2 b2) :
    ReadStep total_bytes c0 b0 c2 b2 := by
  obtain ⟨ha, _, hc, hd, he⟩ := h1
  obtain ⟨ha', hb', hc', hd', he'⟩ := h2
  refine ⟨by omega, hb', by omega, ?_, ?_⟩
  · intro i hi
    rw [hd' i hi, hd i (by omega)]
  · intro i hi
    rw [he' i (by omega), he i hi]

/-- Lines 106-111 store inside the buffer: `count` is below `total_bytes` there. -/
theorem storeHex_step (libc : Libc) (p : List Char) {total_bytes count : Int} {buf : List Nat}
    (h0 : 0 ≤ count) (hc : count < total_bytes) (hlen : total_bytes ≤ (buf.length : Int)) :
    ∃ c b, storeHex libc p count buf = some (c, b) ∧ ReadStep total_bytes count buf c b := by
  obtain ⟨n, rfl⟩ := Int.eq_ofNat_of_zero_le h0
  have hn : n < buf.length := by omega
  unfold storeHex
  split
  · split
    · next val _ =>
      rw [writeByte_natCast, if_pos hn]
      refine ⟨_, _, rfl, by omega, by omega, by simp, ?_, ?_⟩
      · intro i hi
        rw [List.getElem?_set_ne (by omega)]
      · intro i hi
        rw [List.getElem?_set_ne (by omega)]
    · exact ⟨_, _, rfl, ReadStep_refl _ (by omega)⟩
  · exact ⟨_, _, rfl, ReadStep_refl _ (by omega)⟩

/-- The loop of lines 100-116 either runs out of the iteration bound or ends with the
counter at most `total_bytes`; it never stores outside the buffer. -/
theorem scanLine_step (libc : Libc) {total_bytes : Int} (fuel : Nat) (p : List Char)
    {count : Int} {buf : List Nat}
    (h0 : 0 ≤ count) (hc : count ≤ total_bytes) (hlen : total_bytes ≤ (buf.length : Int)) :
    scanLine libc total_bytes fuel p count buf = .error .fuel ∨
    ∃ c b, scanLine libc total_bytes fuel p count buf = .ok (c, b) ∧
      ReadStep total_bytes count buf c b := by
  induction fuel generalizing p count buf with
  | zero => exact Or.inl rfl
  | succ n ih =>
    unfold scanLine
    split
    · next hcond =>
      split
      · exact Or.inr ⟨_, _, rfl, ReadStep_refl _ hc⟩
      · next c cs _ =>
        obtain ⟨c1, b1, hst, hrs⟩ := storeHex_step libc (c :: cs) h0 hcond.2 hlen
        rw [hst]
        dsimp only
        have h0' : 0 ≤ c1 := Int.le_trans h0 hrs.1
        have hlen' : total_bytes ≤ (b1.length : Int) := by rw [hrs.2.2.1]; exact hlen
        split
        · next p1 _ =>
          rcases ih p1 h0' hrs.2.1 hlen' with h | ⟨c2, b2, h, hrs2⟩
          · exact Or.inl h
          · exact Or.inr ⟨c2, b2, h, ReadStep_trans hrs hrs2⟩
        · next p1 _ =>
          rcases ih (skipToken (c :: cs)) h0' hrs.2.1 hlen' with h | ⟨c2, b2, h, hrs2⟩
          · exact Or.inl h
          · exact Or.inr ⟨c2, b2, h, ReadStep_trans hrs hrs2⟩
    · exact Or.inr ⟨_, _, rfl, ReadStep_refl _ hc⟩

/-- The loop of lines 98-121 either runs out of the iteration bound or ends with the counter
at most `total_bytes`; it never stores outside the buffer. -/
theorem readData_step (libc : Libc) {total_bytes : Int} (fuel : Nat) (lines : List (List Char))
    {count : Int} {buf : List Nat}
    (h0 : 0 ≤ count) (hc : count ≤ total_bytes) (hlen : total_bytes ≤ (buf.length : Int)) :
    readData libc total_bytes fuel lines count buf = .error .fuel ∨
    ∃ c b, readData libc total_bytes fuel lines count buf = .ok (c, b) ∧
      ReadStep total_bytes count buf c b := by
  induction lines generalizing count buf with
  | nil => exact Or.inr ⟨_, _, rfl, ReadStep_refl _ hc⟩
  | cons line rest ih =>
    unfold readData
    split
    · rcases scanLine_step libc fuel line h0 hc hlen with h | ⟨c1, b1, h, hrs⟩
      · rw [h]
        exact Or.inl rfl
      · rw [h]
        dsimp only
        split
        · exact Or.inr ⟨_, _, rfl, hrs⟩
        · have h0' : 0 ≤ c1 := Int.le_trans h0 hrs.1
          have hlen' : total_bytes ≤ (b1.length : Int) := by rw [hrs.2.2.1]; exact hlen
          rcases ih h0' hrs.2.1 hlen' with h2 | ⟨c2, b2, h2, hrs2⟩
          · exact Or.inl h2
          · exact Or.inr ⟨c2, b2, h2, ReadStep_trans hrs hrs2⟩
    · exact Or.inr ⟨_, _, rfl, ReadStep_refl _ hc⟩

theorem length_callocBuffer {n : Int} (h0 : 0 ≤ n) (h64 : n < 2 ^ 64) :
    ((callocBuffer n).length : Int) = n := by
  have h : n % 2 ^ 64 = n := Int.emod_eq_of_lt h0 h64
  simp only [callocBuffer, List.length_replicate, h]
  exact Int.toNat_of_nonneg h0

/-- When the byte-reading loop of `main` ends, `count` is at most `total_bytes` and the
buffer still has `total_bytes` bytes, all zero from index `count` on. -/
theorem readData_tolerant (libc : Libc) {total_bytes : Int} (fuel : Nat)
    (lines : List (List Char)) (h0 : 0 ≤ total_bytes) (h64 : total_bytes < 2 ^ 64) :
    readData libc total_bytes fuel lines 0 (callocBuffer total_bytes) = .error .fuel ∨
    ∃ count row_packed_data,
      readData libc total_bytes fuel lines 0 (callocBuffer total_bytes)
        = .ok (count, row_packed_data) ∧
      0 ≤ count ∧ count ≤ total_bytes ∧ (row_packed_data.length : Int) = total_bytes ∧
      ∀ i : Nat, count ≤ (i : Int) → (i : Int) < total_bytes → row_packed_data[i]? = some 0 := by
  have hlen := length_callocBuffer h0 h64
  rcases readData_step libc fuel lines (Int.le_refl 0) h0 (Int.le_of_eq hlen.symm) with
    h | ⟨c, b, h, h1, h2, h3, h4, _⟩
  · exact Or.inl h
  · refine Or.inr ⟨c, b, h, h1, h2, by rw [h3]; exact hlen, ?_⟩
    intro i hi hiT
    rw [h4 i hi]
    have hi' : i < (callocBuffer total_bytes).length := by omega
    rw [List.getElem?_eq_getElem hi']
    simp [callocBuffer]

/-- Once the byte-reading loop has ended, `main` prints the warning of line 126 exactly when
`count` is below `total_bytes`. -/
theorem convert_warning (libc : Libc) (fuel : Nat) (hd : Header) (count : Int)
    (row_packed_data : List Nat)
    (halloc : libc.calloc 0 (Int.tdiv (hd.width * hd.height) 8) = true)
    (hread : readData libc (Int.tdiv (hd.width * hd.height) 8) fuel hd.rest 0
      (callocBuffer (Int.tdiv (hd.width * hd.height) 8)) = .ok (count, row_packed_data)) :
    Event.warnShort count (Int.tdiv (hd.width * hd.height) 8) ∈ (convert libc fuel hd).trace
      ↔ count < Int.tdiv (hd.width * hd.height) 8 := by
  unfold convert
  dsimp only
  rw [if_neg (by simp [halloc]), hread]
  dsimp only
  by_cases hc : count < Int.tdiv (hd.width * hd.height) 8
  · simp only [hc, if_true, iff_true]
    split
    · simp [Run.trace]
    · split
      · simp [Run.trace]
      · split <;> simp [Run.trace]
  · simp only [hc, if_false, iff_false]
    split
    · simp [Run.trace]
    · split
      · simp [Run.trace]
      · split <;> simp [Run.trace]

/-- When the byte-reading loop ends and both allocations succeed, `main` calls
`xbm_to_page_packed` with the buffer the loop filled and the parsed dimensions. -/
theorem convert_calls (libc : Libc) (fuel : Nat) (hd : Header) (count : Int)
    (row_packed_data : List Nat)
    (halloc0 : libc.calloc 0 (Int.tdiv (hd.width * hd.height) 8) = true)
    (halloc1 : libc.calloc 1 (Int.tdiv (hd.width * hd.height) 8) = true)
    (hread : readData libc (Int.tdiv (hd.width * hd.height) 8) fuel hd.rest 0
      (callocBuffer (Int.tdiv (hd.width * hd.height) 8)) = .ok (count, row_packed_data)) :
    Event.call (callocBuffer (Int.tdiv (hd.width * hd.height) 8)) row_packed_data
        hd.width hd.height ∈ (convert libc fuel hd).trace ∧
    (xbm_to_page_packed (callocBuffer (Int.tdiv (hd.width * hd.height) 8)) row_packed_data
        hd.width hd.height = none →
      ∃ trace, convert libc fuel hd = Run.undefined trace) := by
  unfold convert
  dsimp only
  rw [if_neg (by simp [halloc0]), hread]
  dsimp only
  rw [if_neg (by simp [halloc1])]
  constructor
  · split
    · simp [Run.trace]
    · split <;> simp [Run.trace]
  · intro hnone
    rw [hnone]
    exact ⟨_, rfl⟩

/-! ## The two index maps -/

theorem bit_within_page_eq_natCast (y : Nat) : bit_within_page (y : Int) = ((y % 8 : Nat) : Int) :=
  (Int.ofNat_tmod y 8).symm

theorem src_bit_eq_natCast (x : Nat) : src_bit (x : Int) = ((x % 8 : Nat) : Int) :=
  (Int.ofNat_tmod x 8).symm

theorem total_int_natCast (w h : Nat) :
    Int.tdiv ((w : Int) * (h : Int)) 8 = ((w * h / 8 : Nat) : Int) := by
  rw [← Int.ofNat_mul]
  exact (Int.ofNat_tdiv (w * h) 8).symm

theorem pixel_eq_of_dst_index {w x y x' y' : Nat} (hx : x < w) (hx' : x' < w)
    (hi : y / 8 * w + x = y' / 8 * w + x') (hk : y % 8 = y' % 8) : x = x' ∧ y = y' := by
  have h1 := dst_index_mod (y / 8) hx
  have h2 := dst_index_div (y / 8) hx
  rw [hi, dst_index_mod _ hx'] at h1
  rw [hi, dst_index_div _ hx'] at h2
  exact ⟨h1.symm, by omega⟩

theorem pixel_eq_of_src_index {w x y x' y' : Nat} (hw : w % 8 = 0) (hx : x < w) (hx' : x' < w)
    (hj : y * (w / 8) + x / 8 = y' * (w / 8) + x' / 8) (hb : x % 8 = x' % 8) :
    x = x' ∧ y = y' := by
  obtain ⟨h1, h2⟩ := byte_index_of_pixel y hw hx
  obtain ⟨h3, h4⟩ := byte_index_of_pixel y' hw hx'
  rw [hj, h3] at h1
  rw [hj, h4] at h2
  exact ⟨by omega, h2.symm⟩

/-! ## Other orders of iteration -/

theorem colLoop_eq_visitPixels (src : List Nat) (w h x : Nat) (d : List Nat) :
    colLoop src (w : Int) (h : Int) (Int.tdiv (w : Int) 8) (x : Int) d
      = visitPixels src (w : Int) ((List.range h).map (fun y => (x, y))) d := by
  simp only [colLoop, visitPixels, List.foldlM_map, Int.toNat_ofNat]

theorem cols_eq_visitPixels (src : List Nat) (w h : Nat) (xs : List Nat) (d : List Nat) :
    xs.foldlM (fun d (x : Nat) =>
        colLoop src (w : Int) (h : Int) (Int.tdiv (w : Int) 8) (x : Int) d) d
      = visitPixels src (w : Int)
          (xs.flatMap (fun x => (List.range h).map (fun y => (x, y)))) d := by
  induction xs generalizing d with
  | nil => rfl
  | cons x xs ih =>
    rw [List.foldlM_cons, List.flatMap_cons, visitPixels_append, colLoop_eq_visitPixels]
    cases visitPixels src (w : Int) ((List.range h).map (fun y => (x, y))) d with
    | none => rfl
    | some d1 => exact ih d1

theorem mem_colMajor {w h : Nat} {p : Nat × Nat} :
    p ∈ colMajor w h ↔ p.1 < w ∧ p.2 < h := by
  obtain ⟨x, y⟩ := p
  simp only [colMajor, List.mem_flatMap, List.mem_map, List.mem_range, Prod.mk.injEq]
  constructor
  · rintro ⟨a, ha, b, hb, rfl, rfl⟩
    exact ⟨ha, hb⟩
  · rintro ⟨hx, hy⟩
    exact ⟨x, hx, y, hy, rfl, rfl⟩

/-- The column-major variant is the in-order variant on `colMajor`. -/
theorem column_major_eq_in_order (dst src : List Nat) (w h : Nat) :
    xbm_to_page_packed_column_major dst src (w : Int) (h : Int)
      = xbm_to_page_packed_in_order (colMajor w h) dst src (w : Int) (h : Int) := by
  unfold xbm_to_page_packed_column_major xbm_to_page_packed_in_order
  dsimp only
  cases zeroLoop dst (Int.tdiv (w : Int) 8 * (h : Int)) with
  | none => rfl
  | some d0 =>
    show (List.range (w : Int).toNat).foldlM _ d0 = visitPixels src (w : Int) (colMajor w h) d0
    rw [Int.toNat_ofNat]
    exact cols_eq_visitPixels src w h (List.range w) d0

/-- The code is the in-order variant on `rowMajor`. -/
theorem xbm_to_page_packed_eq_in_order (dst src : List Nat) (w h : Nat) :
    xbm_to_page_packed dst src (w : Int) (h : Int)
      = xbm_to_page_packed_in_order (rowMajor w h) dst src (w : Int) (h : Int) := by
  unfold xbm_to_page_packed xbm_to_page_packed_in_order
  dsimp only
  cases zeroLoop dst (Int.tdiv (w : Int) 8 * (h : Int)) with
  | none => rfl
  | some d0 => exact pixelLoop_eq_visitPixels src w h d0

/-- Visiting every pixel, in any order, gives the page-packed image. -/
theorem in_order_eq {src dst : List Nat} {w h : Nat}
    (hw : w % 8 = 0) (hh : h % 8 = 0) (hsrc : w * h / 8 ≤ src.length)
    (hdst : w * h / 8 ≤ dst.length) (ps : List (Nat × Nat))
    (hps : ∀ p, p ∈ ps ↔ p.1 < w ∧ p.2 < h) :
    xbm_to_page_packed_in_order ps dst src (w : Int) (h : Int)
      = some (pagePacked w h src ++ dst.drop (w * h / 8)) := by
  unfold xbm_to_page_packed_in_order
  dsimp only
  rw [total_bytes_natCast h hw, zeroLoop_eq dst _ hdst]
  exact visitPixels_eq_pagePacked hw hh hsrc hdst ps hps

/-! ## Pages -/

/-- The source bytes behind the output byte `i` of page `p` lie in the index range of the
page. -/
theorem page_src_index {w p i k : Nat} (hw : w % 8 = 0) (hi1 : p * w ≤ i)
    (hi2 : i < (p + 1) * w) (hk : k < 8) :
    i / w = p ∧ p * w ≤ (8 * (i / w) + k) * (w / 8) + i % w / 8 ∧
      (8 * (i / w) + k) * (w / 8) + i % w / 8 < (p + 1) * w := by
  have hw0 : 0 < w := by
    rcases Nat.eq_zero_or_pos w with h0 | h0
    · subst h0; simp at hi2
    · exact h0
  have hdiv : i / w = p := Nat.div_eq_of_lt_le hi1 hi2
  have hmod : i % w < w := Nat.mod_lt _ hw0
  obtain ⟨q, rfl⟩ : ∃ q, w = 8 * q := ⟨w / 8, by omega⟩
  have hq : 8 * q / 8 = q := Nat.mul_div_cancel_left q (by decide)
  rw [hdiv, hq]
  have h1 : (8 * p + k) * q = 8 * (p * q) + k * q := by ring
  have h2 : p * (8 * q) = 8 * (p * q) := by ring
  have h3 : (p + 1) * (8 * q) = 8 * (p * q) + 8 * q := by ring
  have h4 : k * q ≤ 7 * q := Nat.mul_le_mul_right q (by omega)
  have h5 : i % (8 * q) / 8 < q := by omega
  rw [h1, h2, h3]
  exact ⟨rfl, by omega, by omega⟩

theorem rowPixel_congr {src1 src2 : List Nat} {w x y : Nat}
    (h : src1[y * (w / 8) + x / 8]? = src2[y * (w / 8) + x / 8]?) :
    rowPixel src1 w x y = rowPixel src2 w x y := by
  simp only [rowPixel, List.getD_eq_getElem?_getD, h]

/-- For width 8 the row-packed reading of a buffer is the page-packed reading with the
coordinates exchanged inside each page. -/
theorem rowPixel_width_8 (buf : List Nat) (i k : Nat) :
    rowPixel buf 8 (i % 8) (8 * (i / 8) + k) = pagePixel buf 8 k i := by
  have h1 : i % 8 / 8 = 0 := by omega
  have h2 : (8 * (i / 8) + k) * (8 / 8) + i % 8 / 8 = i / 8 * 8 + k := by omega
  have h3 : i % 8 % 8 = i % 8 := by omega
  simp only [rowPixel, pagePixel, h2, h3]

/-- For width 8 page packing is its own inverse. -/
theorem pagePacked_width_8_involutive {h : Nat} {src : List Nat} (hh : h % 8 = 0)
    (hsrc : src.length = h) (hbytes : ∀ b ∈ src, b < 256) :
    pagePacked 8 h (pagePacked 8 h src) = src := by
  have hT : 8 * h / 8 = h := Nat.mul_div_cancel_left h (by decide)
  apply List.ext_getElem?
  intro i
  by_cases hi : i < h
  · have hi' : i < 8 * h / 8 := by rw [hT]; exact hi
    have his : i < src.length := by rw [hsrc]; exact hi
    rw [getElem?_pagePacked _ hi', List.getElem?_eq_getElem his]
    congr 1
    rw [← byteOfBits_testBit (hbytes _ (List.getElem_mem his))]
    apply byteOfBits_congr
    intro k hk
    rw [rowPixel_width_8 _ i k]
    have hpp := @pagePixel_pagePacked 8 h k i src [] hh hk hi
    rw [List.append_nil] at hpp
    rw [hpp]
    have h1 : k / 8 = 0 := by omega
    have h2 : k % 8 = k := by omega
    simp [rowPixel, h1, h2, List.getElem?_eq_getElem his]
  · rw [List.getElem?_eq_none (by rw [length_pagePacked, hT]; omega),
      List.getElem?_eq_none (by omega)]

/-! ## Heights that are not multiples of 8 -/

theorem pixelStep_length {src d d' : List Nat} {w x y : Nat}
    (h : pixelStep src (w : Int) (Int.tdiv (w : Int) 8) (y : Int) (x : Int) d = some d') :
    d'.length = d.length := by
  rw [pixelStep_natCast] at h
  split at h
  · exact absurd h (by simp)
  · split at h
    · split at h
      · exact absurd h (by simp)
      · split at h
        · rw [← Option.some.inj h]
          simp
        · exact absurd h (by simp)
    · rw [← Option.some.inj h]

theorem visitPixels_length {src : List Nat} {w : Nat} (ps : List (Nat × Nat))
    {d d' : List Nat} (h : visitPixels src (w : Int) ps d = some d') :
    d'.length = d.length := by
  induction ps generalizing d with
  | nil =>
    rw [visitPixels_nil] at h
    rw [← Option.some.inj h]
  | cons p ps ih =>
    rw [visitPixels_cons] at h
    cases hstep : pixelStep src (w : Int) (Int.tdiv (w : Int) 8) (p.2 : Int) (p.1 : Int) d with
    | none => rw [hstep] at h; exact absurd h (by simp)
    | some d1 =>
      rw [hstep] at h
      rw [ih h, pixelStep_length hstep]

/-- A set pixel whose destination index is outside the buffer makes the store of line 48
leave the buffer. -/
theorem pixelStep_fault {src d : List Nat} {w x y b : Nat}
    (hb : src[y * (w / 8) + x / 8]? = some b) (hbit : b.testBit (x % 8) = true)
    (hi : d.length ≤ y / 8 * w + x) :
    pixelStep src (w : Int) (Int.tdiv (w : Int) 8) (y : Int) (x : Int) d = none := by
  rw [pixelStep_natCast, hb]
  dsimp only
  rw [if_pos hbit, List.getElem?_eq_none hi]

theorem rowMajor_last (w h : Nat) :
    ∃ ps, rowMajor (w + 1) (h + 1) = ps ++ [(w, h)] := by
  refine ⟨(List.range h).flatMap (fun y => (List.range (w + 1)).map (fun x => (x, y)))
    ++ (List.range w).map (fun x => (x, h)), ?_⟩
  simp only [rowMajor]
  rw [List.range_succ h, List.flatMap_append]
  simp [List.range_succ]

/-- With a height that is not a multiple of 8, the destination index of the last pixel is
not below `width*height/8`. -/
theorem last_dst_index_ge {w h : Nat} (hw0 : 0 < w) (hw : w % 8 = 0) (hh0 : 0 < h)
    (hh : h % 8 ≠ 0) : w * h / 8 ≤ (h - 1) / 8 * w + (w - 1) := by
  rw [total_eq_rows h hw]
  obtain ⟨q, rfl⟩ : ∃ q, w = 8 * q := ⟨w / 8, by omega⟩
  have hq : 8 * q / 8 = q := Nat.mul_div_cancel_left q (by decide)
  rw [hq]
  have h1 : h ≤ 8 * ((h - 1) / 8) + 7 := by omega
  have h2 : q * h ≤ q * (8 * ((h - 1) / 8) + 7) := Nat.mul_le_mul_left q h1
  have h3 : q * (8 * ((h - 1) / 8) + 7) = 8 * ((h - 1) / 8 * q) + 7 * q := by ring
  have h4 : (h - 1) / 8 * (8 * q) = 8 * ((h - 1) / 8 * q) := by ring
  rw [h3] at h2
  rw [h4]
  omega

/-- With a height that is not a multiple of 8 and the last pixel set, the function stores
outside a destination of `width*height/8` bytes. -/
theorem xbm_to_page_packed_fault {src dst : List Nat} {w h b : Nat}
    (hw0 : 0 < w) (hw : w % 8 = 0) (hh0 : 0 < h) (hh : h % 8 ≠ 0)
    (hdst : dst.length = w * h / 8)
    (hb : src[(h - 1) * (w / 8) + (w - 1) / 8]? = some b)
    (hbit : b.testBit ((w - 1) % 8) = true) :
    xbm_to_page_packed dst src (w : Int) (h : Int) = none := by
  unfold xbm_to_page_packed
  dsimp only
  rw [total_bytes_natCast h hw, zeroLoop_eq dst _ (Nat.le_of_eq hdst.symm)]
  show pixelLoop src (w : Int) (h : Int) (Int.tdiv (w : Int) 8) _ = none
  rw [pixelLoop_eq_visitPixels]
  obtain ⟨w', rfl⟩ : ∃ w', w = w' + 1 := ⟨w - 1, by omega⟩
  obtain ⟨h', rfl⟩ : ∃ h', h = h' + 1 := ⟨h - 1, by omega⟩
  obtain ⟨ps, hps⟩ := rowMajor_last w' h'
  rw [hps, visitPixels_append]
  cases hrun : visitPixels src ((w' + 1 : Nat) : Int) ps
      (List.replicate ((w' + 1) * (h' + 1) / 8) 0 ++ dst.drop ((w' + 1) * (h' + 1) / 8)) with
  | none => rfl
  | some d =>
    have hlen : d.length = (w' + 1) * (h' + 1) / 8 := by
      rw [visitPixels_length ps hrun]
      simp only [List.length_append, List.length_replicate, List.length_drop]
      omega
    show visitPixels src ((w' + 1 : Nat) : Int) [(w', h')] d = none
    rw [visitPixels_cons]
    have hge := last_dst_index_ge hw0 hw hh0 hh
    simp only [Nat.add_sub_cancel] at hge hb hbit
    rw [pixelStep_fault hb hbit (by rw [hlen]; exact hge)]
    rfl

/-- While the dimensions are not zero `main` is the conversion of lines 89-161. -/
theorem main_eq_convert (libc : Libc) (fuel : Nat) (argc : Int) (lines : List (List Char))
    (hargc : 2 ≤ argc) (hwidth : (readHeader libc lines 0 0 []).width ≠ 0)
    (hheight : (readHeader libc lines 0 0 []).height ≠ 0) :
    main libc fuel argc (some lines) = convert libc fuel (readHeader libc lines 0 0 []) := by
  unfold main
  rw [if_neg (by omega)]
  dsimp only
  rw [if_neg (by tauto)]

/-! ## The number of bytes written -/

/-- Lines 34-36 store outside a destination of fewer than `n` bytes. -/
theorem zeroLoop_short (dst : List Nat) (n : Nat) (hn : dst.length < n) :
    zeroLoop dst (n : Int) = none := by
  simp only [zeroLoop, Int.toNat_ofNat]
  induction n with
  | zero => exact absurd hn (Nat.not_lt_zero _)
  | succ n ih =>
    rw [List.range_succ, List.foldlM_append]
    by_cases hlt : dst.length < n
    · rw [ih hlt]
      rfl
    · have hle : n ≤ dst.length := by omega
      have hz := zeroLoop_eq dst n hle
      simp only [zeroLoop, Int.toNat_ofNat] at hz
      rw [hz]
      simp only [List.foldlM_cons, List.foldlM_nil]
      have hlen : ¬ n < (List.replicate n 0 ++ dst.drop n).length := by
        simp only [List.length_append, List.length_replicate, List.length_drop]; omega
      show (writeByte (List.replicate n 0 ++ dst.drop n) (n : Int) 0).bind some = _
      rw [writeByte_natCast, if_neg hlen]
      rfl

/-- The function is the clearing loop over `total_bytes` bytes followed by the pixel loops. -/
theorem xbm_to_page_packed_unfold (dst src : List Nat) (width height : Int) :
    xbm_to_page_packed dst src width height
      = (zeroLoop dst (total_bytes width height)).bind
          (fun dst0 => pixelLoop src width height (Int.tdiv width 8) dst0) := rfl

theorem total_bytes_eq_length {w h : Nat} {src : List Nat} (hw : w % 8 = 0)
    (hsrc : src.length = w * h / 8) :
    total_bytes (w : Int) (h : Int) = (src.length : Int) := by
  rw [total_bytes, total_bytes_natCast h hw, hsrc]

/-- A destination with fewer bytes than the image makes the function store outside it. -/
theorem xbm_to_page_packed_short {src dst : List Nat} {w h : Nat} (hw : w % 8 = 0)
    (hdst : dst.length < w * h / 8) :
    xbm_to_page_packed dst src (w : Int) (h : Int) = none := by
  rw [xbm_to_page_packed_unfold, total_bytes, total_bytes_natCast h hw,
    zeroLoop_short dst _ hdst]
  rfl

theorem length_callocBuffer_of_lt {w h : Nat} (hlt : w * h < 2 ^ 31) :
    (callocBuffer (Int.tdiv ((w : Int) * (h : Int)) 8)).length = w * h / 8 := by
  rw [total_int_natCast]
  have h1 : w * h / 8 < 2 ^ 64 := by
    have : w * h / 8 ≤ w * h := Nat.div_le_self _ _
    have : (2 : Nat) ^ 31 < 2 ^ 64 := by norm_num
    omega
  have h2 : ((w * h / 8 : Nat) : Int) % 2 ^ 64 = ((w * h / 8 : Nat) : Int) :=
    Int.emod_eq_of_lt (Int.ofNat_nonneg _) (by exact_mod_cast h1)
  simp only [callocBuffer, List.length_replicate, h2, Int.toNat_ofNat]

/-! ## The claims -/

/-- C1: for width and height multiples of 8, a source of `width*height/8` bytes and a pixel
`(x, y)` inside the image, bit `y mod 8` of output byte `(y/8)*width + x` equals bit
`x mod 8` of source byte `y*(width/8) + x/8`.  (The destination may be any buffer of at
least `width*height/8` bytes; the dimensions are positive because the pixel exists.) -/
theorem C1_pixel_relocated (w h x y : Nat) (src dst : List Nat)
    (hw : w % 8 = 0) (hh : h % 8 = 0) (hsrc : src.length = w * h / 8)
    (hdst : w * h / 8 ≤ dst.length) (hx : x < w) (hy : y < h) :
    ∃ out a b, xbm_to_page_packed dst src (w : Int) (h : Int) = some out ∧
      out[y / 8 * w + x]? = some a ∧ src[y * (w / 8) + x / 8]? = some b ∧
      a.testBit (y % 8) = b.testBit (x % 8) := by
  have hj : y * (w / 8) + x / 8 < src.length := by
    rw [hsrc]; exact src_index_lt hw hx hy
  have hi : y / 8 * w + x < w * h / 8 := dst_index_lt hh hx hy
  have hpix := pagePixel_pagePacked src (dst.drop (w * h / 8)) hh hx hy
  have hget : (pagePacked w h src ++ dst.drop (w * h / 8))[y / 8 * w + x]?
      = some (byteOfBits (fun k => rowPixel src w ((y / 8 * w + x) % w)
          (8 * ((y / 8 * w + x) / w) + k))) := by
    rw [List.getElem?_append_left (by rw [length_pagePacked]; exact hi),
      getElem?_pagePacked src hi]
  refine ⟨_, _, src[y * (w / 8) + x / 8],
    xbm_to_page_packed_eq hw hh (Nat.le_of_eq hsrc.symm) hdst, hget,
    List.getElem?_eq_getElem hj, ?_⟩
  simpa [pagePixel, rowPixel, hget, List.getElem?_eq_getElem hj] using hpix

/-- C1 at the pixel `(3, 5)` of a 16 x 8 bitmap. -/
theorem C1_pixel_relocated_witness :
    (16 % 8 = 0 ∧ 8 % 8 = 0 ∧ 3 < 16 ∧ 5 < 8) ∧
    ∃ out a b, xbm_to_page_packed (List.replicate 16 0)
        [0, 0, 1, 0, 2, 0, 4, 0, 8, 0, 8, 0, 16, 0, 32, 0] ((16 : Nat) : Int) ((8 : Nat) : Int)
        = some out ∧
      out[5 / 8 * 16 + 3]? = some a ∧
      [0, 0, 1, 0, 2, 0, 4, 0, 8, 0, 8, 0, 16, 0, 32, 0][5 * (16 / 8) + 3 / 8]? = some b ∧
      a.testBit (5 % 8) = b.testBit (3 % 8) :=
  ⟨by decide, C1_pixel_relocated 16 8 3 5 [0, 0, 1, 0, 2, 0, 4, 0, 8, 0, 8, 0, 16, 0, 32, 0]
    (List.replicate 16 0) (by decide) (by decide) (by decide) (by decide) (by decide)
    (by decide)⟩

/-- C2: round trip.  The row-from-page transform `row_from_page` gives back every
row-packed buffer of `width*height/8` bytes from its image under `xbm_to_page_packed`, for
width and height multiples of 8; so `xbm_to_page_packed` is injective on such buffers. -/
theorem C2_round_trip (w h : Nat) (src dst : List Nat)
    (hw : w % 8 = 0) (hh : h % 8 = 0) (hsrc : src.length = w * h / 8)
    (hbytes : ∀ b ∈ src, b < 256) (hdst : w * h / 8 ≤ dst.length) :
    (∃ out, xbm_to_page_packed dst src (w : Int) (h : Int) = some out ∧
      row_from_page w h out = src) ∧
    (∀ src' : List Nat, src'.length = w * h / 8 → (∀ b ∈ src', b < 256) →
      xbm_to_page_packed dst src' (w : Int) (h : Int)
        = xbm_to_page_packed dst src (w : Int) (h : Int) → src' = src) := by
  have hrun := @xbm_to_page_packed_eq src dst w h hw hh (Nat.le_of_eq hsrc.symm) hdst
  refine ⟨⟨_, hrun, row_from_page_pagePacked _ hw hh hsrc hbytes⟩, ?_⟩
  intro src' hsrc' hbytes' heq
  rw [hrun, @xbm_to_page_packed_eq src' dst w h hw hh (Nat.le_of_eq hsrc'.symm) hdst] at heq
  have h1 := row_from_page_pagePacked (dst.drop (w * h / 8)) hw hh hsrc' hbytes'
  have h2 := row_from_page_pagePacked (dst.drop (w * h / 8)) hw hh hsrc hbytes
  rw [Option.some.inj heq] at h1
  rw [← h1, h2]

/-- C2 on an 8 x 8 bitmap. -/
theorem C2_round_trip_witness :
    (8 % 8 = 0 ∧ [0x3C, 0x42, 0xA5, 0x81, 0xA5, 0x99, 0x42, 0x3F].length = 8 * 8 / 8) ∧
    ((∃ out, xbm_to_page_packed (List.replicate 8 0)
        [0x3C, 0x42, 0xA5, 0x81, 0xA5, 0x99, 0x42, 0x3F] ((8 : Nat) : Int) ((8 : Nat) : Int)
        = some out ∧
      row_from_page 8 8 out = [0x3C, 0x42, 0xA5, 0x81, 0xA5, 0x99, 0x42, 0x3F]) ∧
    (∀ src' : List Nat, src'.length = 8 * 8 / 8 → (∀ b ∈ src', b < 256) →
      xbm_to_page_packed (List.replicate 8 0) src' ((8 : Nat) : Int) ((8 : Nat) : Int)
        = xbm_to_page_packed (List.replicate 8 0)
            [0x3C, 0x42, 0xA5, 0x81, 0xA5, 0x99, 0x42, 0x3F] ((8 : Nat) : Int) ((8 : Nat) : Int)
        → src' = [0x3C, 0x42, 0xA5, 0x81, 0xA5, 0x99, 0x42, 0x3F])) :=
  ⟨by decide, C2_round_trip 8 8 [0x3C, 0x42, 0xA5, 0x81, 0xA5, 0x99, 0x42, 0x3F]
    (List.replicate 8 0) (by decide) (by decide) (by decide) (by decide) (by decide)⟩

/-- C3: size preservation.  For width and height multiples of 8 and a source of
`width*height/8` bytes, the byte count `(width/8)*height` that `xbm_to_page_packed` clears
and fills is the length of the source, `width*height/8`: on a destination of that length the
function returns a destination of that length, every byte of it computed from the source; on
a shorter destination it stores outside the buffer; on a longer one it writes the first
`width*height/8` bytes and leaves the others.  While `width*height` stays below `2^31`, the
range of `int`, this is also the length of the buffers `main` allocates at lines 89-90 and
129. -/
theorem C3_size_preserved (w h : Nat) (src : List Nat)
    (hw : w % 8 = 0) (hh : h % 8 = 0) (hsrc : src.length = w * h / 8) :
    (total_bytes (w : Int) (h : Int) = (src.length : Int) ∧
      ∀ dst : List Nat, xbm_to_page_packed dst src (w : Int) (h : Int)
        = (zeroLoop dst (total_bytes (w : Int) (h : Int))).bind
            (fun dst0 => pixelLoop src (w : Int) (h : Int) (Int.tdiv (w : Int) 8) dst0)) ∧
    (∀ dst : List Nat, dst.length = src.length →
      ∃ out, xbm_to_page_packed dst src (w : Int) (h : Int) = some out ∧
        out.length = src.length ∧ out.length = w * h / 8 ∧ out = pagePacked w h src) ∧
    (∀ dst : List Nat, dst.length < src.length →
      xbm_to_page_packed dst src (w : Int) (h : Int) = none) ∧
    (∀ dst : List Nat, src.length ≤ dst.length →
      ∃ out, xbm_to_page_packed dst src (w : Int) (h : Int) = some out ∧
        out.length = dst.length ∧ out.take src.length = pagePacked w h src ∧
        out.drop src.length = dst.drop src.length) ∧
    (w * h < 2 ^ 31 →
      (callocBuffer (Int.tdiv ((w : Int) * (h : Int)) 8)).length = src.length) := by
  have hsrc' : w * h / 8 ≤ src.length := Nat.le_of_eq hsrc.symm
  have hpl : (pagePacked w h src).length = src.length := by rw [length_pagePacked, hsrc]
  refine ⟨⟨total_bytes_eq_length hw hsrc, fun dst => xbm_to_page_packed_unfold dst src _ _⟩,
    ?_, ?_, ?_, ?_⟩
  · intro dst hdst
    have hrun := @xbm_to_page_packed_eq src dst w h hw hh hsrc' (by omega)
    rw [List.drop_of_length_le (by omega), List.append_nil] at hrun
    exact ⟨_, hrun, hpl, by rw [length_pagePacked], rfl⟩
  · intro dst hdst
    exact xbm_to_page_packed_short hw (by omega)
  · intro dst hdst
    refine ⟨_, xbm_to_page_packed_eq hw hh hsrc' (by omega), ?_, ?_, ?_⟩
    · rw [List.length_append, length_pagePacked, List.length_drop]
      omega
    · rw [← hpl, List.take_left']
      rfl
    · rw [← hpl, List.drop_left', hpl, hsrc]
      rfl
  · intro hlt
    rw [length_callocBuffer_of_lt hlt, hsrc]

/-- C3 on a 16 x 8 bitmap. -/
theorem C3_size_preserved_witness :
    (16 % 8 = 0 ∧ 8 % 8 = 0 ∧ (List.replicate 16 0xFF).length = 16 * 8 / 8) ∧
    ((total_bytes ((16 : Nat) : Int) ((8 : Nat) : Int)
        = ((List.replicate 16 0xFF).length : Int) ∧
      ∀ dst : List Nat,
        xbm_to_page_packed dst (List.replicate 16 0xFF) ((16 : Nat) : Int) ((8 : Nat) : Int)
          = (zeroLoop dst (total_bytes ((16 : Nat) : Int) ((8 : Nat) : Int))).bind
              (fun dst0 => pixelLoop (List.replicate 16 0xFF) ((16 : Nat) : Int)
                ((8 : Nat) : Int) (Int.tdiv ((16 : Nat) : Int) 8) dst0)) ∧
    (∀ dst : List Nat, dst.length = (List.replicate 16 0xFF).length →
      ∃ out, xbm_to_page_packed dst (List.replicate 16 0xFF) ((16 : Nat) : Int)
          ((8 : Nat) : Int) = some out ∧
        out.length = (List.replicate 16 0xFF).length ∧ out.length = 16 * 8 / 8 ∧
        out = pagePacked 16 8 (List.replicate 16 0xFF)) ∧
    (∀ dst : List Nat, dst.length < (List.replicate 16 0xFF).length →
      xbm_to_page_packed dst (List.replicate 16 0xFF) ((16 : Nat) : Int) ((8 : Nat) : Int)
        = none) ∧
    (∀ dst : List Nat, (List.replicate 16 0xFF).length ≤ dst.length →
      ∃ out, xbm_to_page_packed dst (List.replicate 16 0xFF) ((16 : Nat) : Int)
          ((8 : Nat) : Int) = some out ∧
        out.length = dst.length ∧
        out.take (List.replicate 16 0xFF).length = pagePacked 16 8 (List.replicate 16 0xFF) ∧
        out.drop (List.replicate 16 0xFF).length = dst.drop (List.replicate 16 0xFF).length) ∧
    (16 * 8 < 2 ^ 31 →
      (callocBuffer (Int.tdiv (((16 : Nat) : Int) * ((8 : Nat) : Int)) 8)).length
        = (List.replicate 16 0xFF).length)) :=
  ⟨by decide, C3_size_preserved 16 8 (List.replicate 16 0xFF) (by decide) (by decide)
    (by decide)⟩

/-- C4: bit count conservation.  For width and height multiples of 8 and a source of
`width*height/8` bytes, the output of `xbm_to_page_packed` has as many set bits, over all
its bytes, as the source. -/
theorem C4_bit_count_conserved (w h : Nat) (src dst : List Nat)
    (hw : w % 8 = 0) (hh : h % 8 = 0) (hsrc : src.length = w * h / 8)
    (hdst : dst.length = w * h / 8) :
    ∃ out, xbm_to_page_packed dst src (w : Int) (h : Int) = some out ∧
      setBits out = setBits src := by
  refine ⟨_, xbm_to_page_packed_eq hw hh (Nat.le_of_eq hsrc.symm) (Nat.le_of_eq hdst.symm), ?_⟩
  rw [List.drop_of_length_le (Nat.le_of_eq hdst), List.append_nil,
    setBits_pagePacked src hh, setBits_rows hw hsrc]

/-- C4 on an 8 x 8 bitmap with 28 set bits. -/
theorem C4_bit_count_conserved_witness :
    (8 % 8 = 0 ∧ setBits [0x3C, 0x42, 0xA5, 0x81, 0xA5, 0x99, 0x42, 0x3F] = 28) ∧
    ∃ out, xbm_to_page_packed (List.replicate 8 0)
        [0x3C, 0x42, 0xA5, 0x81, 0xA5, 0x99, 0x42, 0x3F] ((8 : Nat) : Int) ((8 : Nat) : Int)
        = some out ∧
      setBits out = setBits [0x3C, 0x42, 0xA5, 0x81, 0xA5, 0x99, 0x42, 0x3F] :=
  ⟨by decide, C4_bit_count_conserved 8 8 [0x3C, 0x42, 0xA5, 0x81, 0xA5, 0x99, 0x42, 0x3F]
    (List.replicate 8 0) (by decide) (by decide) (by decide) (by decide)⟩

/-- C5: single-pixel locality.  For width and height multiples of 8 and a pixel `(x, y)`
inside the image, if the source has exactly one set bit, at byte `y*(width/8) + x/8`, bit
`x mod 8`, then the output of `xbm_to_page_packed` has exactly one set bit, at byte
`(y/8)*width + x`, bit `y mod 8`. -/
theorem C5_single_pixel (w h x y : Nat) (src dst : List Nat)
    (hw : w % 8 = 0) (hh : h % 8 = 0) (hx : x < w) (hy : y < h)
    (hsrc : src.length = w * h / 8) (hdst : dst.length = w * h / 8)
    (hone : setBits src = 1)
    (hbit : ∃ b, src[y * (w / 8) + x / 8]? = some b ∧ b.testBit (x % 8) = true) :
    ∃ out a, xbm_to_page_packed dst src (w : Int) (h : Int) = some out ∧
      setBits out = 1 ∧ out[y / 8 * w + x]? = some a ∧ a.testBit (y % 8) = true := by
  obtain ⟨b, hb, hbt⟩ := hbit
  have hi : y / 8 * w + x < w * h / 8 := dst_index_lt hh hx hy
  have hget : (pagePacked w h src ++ dst.drop (w * h / 8))[y / 8 * w + x]?
      = some (byteOfBits (fun k => rowPixel src w ((y / 8 * w + x) % w)
          (8 * ((y / 8 * w + x) / w) + k))) := by
    rw [List.getElem?_append_left (by rw [length_pagePacked]; exact hi),
      getElem?_pagePacked src hi]
  have hpix := pagePixel_pagePacked src (dst.drop (w * h / 8)) hh hx hy
  refine ⟨_, _, xbm_to_page_packed_eq hw hh (Nat.le_of_eq hsrc.symm) (Nat.le_of_eq hdst.symm),
    ?_, hget, ?_⟩
  · rw [List.drop_of_length_le (Nat.le_of_eq hdst), List.append_nil,
      setBits_pagePacked src hh, ← setBits_rows hw hsrc, hone]
  · have hrow : rowPixel src w x y = true := by
      simp [rowPixel, hb, hbt]
    rw [← hrow, ← hpix]
    simp [pagePixel, hget]

/-- C5 at the four corners `(0,0)`, `(15,0)`, `(0,15)`, `(15,15)` of a 16 x 16 bitmap. -/
theorem C5_single_pixel_witness :
    (setBits (onePixelRows 16 16 0 0) = 1 ∧ setBits (onePixelRows 16 16 15 0) = 1 ∧
      setBits (onePixelRows 16 16 0 15) = 1 ∧ setBits (onePixelRows 16 16 15 15) = 1) ∧
    (∃ out a, xbm_to_page_packed (List.replicate 32 0) (onePixelRows 16 16 0 0)
        ((16 : Nat) : Int) ((16 : Nat) : Int) = some out ∧
      setBits out = 1 ∧ out[0 / 8 * 16 + 0]? = some a ∧ a.testBit (0 % 8) = true) ∧
    (∃ out a, xbm_to_page_packed (List.replicate 32 0) (onePixelRows 16 16 15 0)
        ((16 : Nat) : Int) ((16 : Nat) : Int) = some out ∧
      setBits out = 1 ∧ out[0 / 8 * 16 + 15]? = some a ∧ a.testBit (0 % 8) = true) ∧
    (∃ out a, xbm_to_page_packed (List.replicate 32 0) (onePixelRows 16 16 0 15)
        ((16 : Nat) : Int) ((16 : Nat) : Int) = some out ∧
      setBits out = 1 ∧ out[15 / 8 * 16 + 0]? = some a ∧ a.testBit (15 % 8) = true) ∧
    (∃ out a, xbm_to_page_packed (List.replicate 32 0) (onePixelRows 16 16 15 15)
        ((16 : Nat) : Int) ((16 : Nat) : Int) = some out ∧
      setBits out = 1 ∧ out[15 / 8 * 16 + 15]? = some a ∧ a.testBit (15 % 8) = true) :=
  ⟨by decide,
    C5_single_pixel 16 16 0 0 (onePixelRows 16 16 0 0) (List.replicate 32 0)
      (by decide) (by decide) (by decide) (by decide) (by decide) (by decide) (by decide)
      ⟨1, by decide, by decide⟩,
    C5_single_pixel 16 16 15 0 (onePixelRows 16 16 15 0) (List.replicate 32 0)
      (by decide) (by decide) (by decide) (by decide) (by decide) (by decide) (by decide)
      ⟨128, by decide, by decide⟩,
    C5_single_pixel 16 16 0 15 (onePixelRows 16 16 0 15) (List.replicate 32 0)
      (by decide) (by decide) (by decide) (by decide) (by decide) (by decide) (by decide)
      ⟨1, by decide, by decide⟩,
    C5_single_pixel 16 16 15 15 (onePixelRows 16 16 15 15) (List.replicate 32 0)
      (by decide) (by decide) (by decide) (by decide) (by decide) (by decide) (by decide)
      ⟨128, by decide, by decide⟩⟩

/-- C6: zero input.  For width and height multiples of 8, an all-zero source of
`width*height/8` bytes makes `xbm_to_page_packed` produce an all-zero destination of the
same length, whatever the destination of that length held before. -/
theorem C6_zero_input (w h : Nat) (dst : List Nat)
    (hw : w % 8 = 0) (hh : h % 8 = 0) (hdst : dst.length = w * h / 8) :
    xbm_to_page_packed dst (List.replicate (w * h / 8) 0) (w : Int) (h : Int)
      = some (List.replicate (w * h / 8) 0) := by
  rw [xbm_to_page_packed_eq hw hh (by simp) (Nat.le_of_eq hdst.symm),
    pagePacked_replicate_zero, List.drop_of_length_le (Nat.le_of_eq hdst), List.append_nil]

/-- C6 on a 16 x 16 bitmap and a destination full of `0xAA`. -/
theorem C6_zero_input_witness :
    (16 % 8 = 0 ∧ (List.replicate 32 0xAA).length = 16 * 16 / 8) ∧
    xbm_to_page_packed (List.replicate 32 0xAA) (List.replicate (16 * 16 / 8) 0)
        ((16 : Nat) : Int) ((16 : Nat) : Int)
      = some (List.replicate (16 * 16 / 8) 0) :=
  ⟨by decide, C6_zero_input 16 16 (List.replicate 32 0xAA) (by decide) (by decide)
    (by decide)⟩

/-- C7: known vector.  For width 8, height 8 and the source bytes
`01 02 04 08 10 20 40 80` the output is not `FF 00 00 00 00 00 00 00`: output byte `i` has
exactly bit `i` set, that is, the output is `01 02 04 08 10 20 40 80` again. -/
theorem C7_known_vector (dst : List Nat) (hdst : dst.length = 8) :
    xbm_to_page_packed dst [0x01, 0x02, 0x04, 0x08, 0x10, 0x20, 0x40, 0x80] 8 8
        = some [0x01, 0x02, 0x04, 0x08, 0x10, 0x20, 0x40, 0x80] ∧
    xbm_to_page_packed dst [0x01, 0x02, 0x04, 0x08, 0x10, 0x20, 0x40, 0x80] 8 8
        ≠ some [0xFF, 0x00, 0x00, 0x00, 0x00, 0x00, 0x00, 0x00] ∧
    ∀ i, i < 8 → ∃ b, xbm_to_page_packed dst [0x01, 0x02, 0x04, 0x08, 0x10, 0x20, 0x40, 0x80]
        8 8 >>= (fun out => out[i]?) = some b ∧ ∀ k, b.testBit k = decide (k = i) := by
  have hrun := @xbm_to_page_packed_eq [0x01, 0x02, 0x04, 0x08, 0x10, 0x20, 0x40, 0x80] dst 8 8
    (by decide) (by decide) (by decide) (by rw [hdst])
  have hpk : pagePacked 8 8 [0x01, 0x02, 0x04, 0x08, 0x10, 0x20, 0x40, 0x80]
      = [0x01, 0x02, 0x04, 0x08, 0x10, 0x20, 0x40, 0x80] := by decide
  have hdrop : dst.drop (8 * 8 / 8) = [] := List.drop_of_length_le (by rw [hdst])
  rw [hpk, hdrop, List.append_nil] at hrun
  have hrun' : xbm_to_page_packed dst [0x01, 0x02, 0x04, 0x08, 0x10, 0x20, 0x40, 0x80] 8 8
      = some [0x01, 0x02, 0x04, 0x08, 0x10, 0x20, 0x40, 0x80] := hrun
  rw [hrun']
  refine ⟨rfl, by decide, ?_⟩
  intro i hi
  have hbit : ∀ j k : Nat, j < 8 → (1 <<< j).testBit k = decide (k = j) := by
    intro j k _
    rw [testBit_one_shiftLeft]
    by_cases hjk : j = k
    · subst hjk; simp
    · have hkj : ¬ k = j := fun e => hjk e.symm
      simp [hjk, hkj]
  interval_cases i
  · exact ⟨1, rfl, fun k => hbit 0 k (by decide)⟩
  · exact ⟨2, rfl, fun k => hbit 1 k (by decide)⟩
  · exact ⟨4, rfl, fun k => hbit 2 k (by decide)⟩
  · exact ⟨8, rfl, fun k => hbit 3 k (by decide)⟩
  · exact ⟨16, rfl, fun k => hbit 4 k (by decide)⟩
  · exact ⟨32, rfl, fun k => hbit 5 k (by decide)⟩
  · exact ⟨64, rfl, fun k => hbit 6 k (by decide)⟩
  · exact ⟨128, rfl, fun k => hbit 7 k (by decide)⟩

/-- C7 with the zeroed destination `main` passes. -/
theorem C7_known_vector_witness :
    (List.replicate 8 0).length = 8 ∧
    (xbm_to_page_packed (List.replicate 8 0) [0x01, 0x02, 0x04, 0x08, 0x10, 0x20, 0x40, 0x80]
        8 8 = some [0x01, 0x02, 0x04, 0x08, 0x10, 0x20, 0x40, 0x80] ∧
    xbm_to_page_packed (List.replicate 8 0) [0x01, 0x02, 0x04, 0x08, 0x10, 0x20, 0x40, 0x80]
        8 8 ≠ some [0xFF, 0x00, 0x00, 0x00, 0x00, 0x00, 0x00, 0x00] ∧
    ∀ i, i < 8 → ∃ b, xbm_to_page_packed (List.replicate 8 0)
        [0x01, 0x02, 0x04, 0x08, 0x10, 0x20, 0x40, 0x80] 8 8 >>= (fun out => out[i]?) = some b ∧
      ∀ k, b.testBit k = decide (k = i)) :=
  ⟨by decide, C7_known_vector (List.replicate 8 0) (by decide)⟩

/-- C8, as stated, fails: the file `file10x8` declares width 10 and height 8, and `main`
exits with status 0 after printing a ten-byte array; `xbm_to_page_packed` itself returns a
buffer, not an error. -/
theorem C8_width_10_not_rejected :
    main xbmLibc 100 2 (some file10x8)
      = Run.exit 0
          [Event.calloc 10, Event.fclose, Event.calloc 10,
            Event.call (List.replicate 10 0) [1, 2, 4, 8, 16, 32, 64, 128, 255, 0] 10 8,
            Event.free,
            Event.print ("const char PROGMEM img_qmk[] = \x7b\n".toList
              ++ "    0x01, 0x02, 0x04, 0x08, 0x10, 0x20, 0x40, 0x80,\n".toList
              ++ "    0x80, 0x81  \x7d;\n\n".toList),
            Event.free] ∧
    xbm_to_page_packed (List.replicate 10 0) [1, 2, 4, 8, 16, 32, 64, 128, 255, 0] 10 8
      = some [1, 2, 4, 8, 16, 32, 64, 128, 128, 129] := by
  constructor
  · decide
  · decide

/-- C8, amended: dimensions that are not multiples of 8 are not rejected.  The only
dimension check of `main` is `width == 0 || height == 0`: for every other width and height
`main` goes on to `calloc((width*height)/8, 1)` and never prints the dimension error.  And
`xbm_to_page_packed` checks nothing: for every width, multiple of 8 or not, and every
height that is a multiple of 8, it returns a destination of `(width*height)/8` bytes when
given buffers of that length. -/
theorem C8_only_zero_dimensions_rejected (libc : Libc) (fuel : Nat) (argc : Int)
    (lines : List (List Char)) (w h : Nat) (src dst : List Nat)
    (hargc : 2 ≤ argc)
    (hwidth : (readHeader libc lines 0 0 []).width ≠ 0)
    (hheight : (readHeader libc lines 0 0 []).height ≠ 0)
    (hh : h % 8 = 0) (hsrc : src.length = w * h / 8) (hdst : dst.length = w * h / 8) :
    ((main libc fuel argc (some lines)).trace.head?
        = some (Event.calloc (Int.tdiv ((readHeader libc lines 0 0 []).width
            * (readHeader libc lines 0 0 []).height) 8)) ∧
      Event.failedDims ∉ (main libc fuel argc (some lines)).trace) ∧
    ∃ out, xbm_to_page_packed dst src (w : Int) (h : Int) = some out ∧
      out.length = w * h / 8 := by
  have hmain : main libc fuel argc (some lines)
      = convert libc fuel (readHeader libc lines 0 0 []) := by
    unfold main
    rw [if_neg (by omega)]
    dsimp only
    rw [if_neg (by tauto)]
  rw [hmain]
  exact ⟨⟨convert_trace_head libc fuel _, convert_no_failedDims libc fuel _⟩,
    xbm_to_page_packed_some hh hsrc hdst⟩

/-- C8, amended, on the file `file10x8` and a 10 x 8 bitmap. -/
theorem C8_only_zero_dimensions_rejected_witness :
    ((2 : Int) ≤ 2 ∧ (readHeader xbmLibc file10x8 0 0 []).width = 10 ∧
      (readHeader xbmLibc file10x8 0 0 []).height = 8 ∧ 10 % 8 ≠ 0) ∧
    (((main xbmLibc 100 2 (some file10x8)).trace.head?
        = some (Event.calloc (Int.tdiv ((readHeader xbmLibc file10x8 0 0 []).width
            * (readHeader xbmLibc file10x8 0 0 []).height) 8)) ∧
      Event.failedDims ∉ (main xbmLibc 100 2 (some file10x8)).trace) ∧
    ∃ out, xbm_to_page_packed (List.replicate 10 0) [1, 2, 4, 8, 16, 32, 64, 128, 255, 0]
        ((10 : Nat) : Int) ((8 : Nat) : Int) = some out ∧
      out.length = 10 * 8 / 8) :=
  ⟨by decide, C8_only_zero_dimensions_rejected xbmLibc 100 2 file10x8 10 8
    [1, 2, 4, 8, 16, 32, 64, 128, 255, 0] (List.replicate 10 0)
    (by decide) (by decide) (by decide) (by decide) (by decide) (by decide)⟩

/-- C9: index safety.  For width and height multiples of 8 and a pixel `(x, y)` inside the
image, the source index `y*(width/8) + x/8` and the destination index `(y/8)*width + x`
that `xbm_to_page_packed` computes lie in `[0, width*height/8)` and the bit `y mod 8` in
`[0, 8)`; and on buffers of `width*height/8` bytes the function runs to its end without an
access outside a buffer. -/
theorem C9_index_safety (w h x y : Nat)
    (hw : w % 8 = 0) (hh : h % 8 = 0) (hx : x < w) (hy : y < h) :
    (0 ≤ src_byte_index (Int.tdiv (w : Int) 8) (x : Int) (y : Int) ∧
      src_byte_index (Int.tdiv (w : Int) 8) (x : Int) (y : Int)
        < Int.tdiv ((w : Int) * (h : Int)) 8) ∧
    (0 ≤ dst_byte_index (w : Int) (x : Int) (y : Int) ∧
      dst_byte_index (w : Int) (x : Int) (y : Int) < Int.tdiv ((w : Int) * (h : Int)) 8) ∧
    (0 ≤ bit_within_page (y : Int) ∧ bit_within_page (y : Int) < 8) ∧
    (∀ src dst : List Nat, src.length = w * h / 8 → dst.length = w * h / 8 →
      ∃ out, xbm_to_page_packed dst src (w : Int) (h : Int) = some out) := by
  have htot : Int.tdiv ((w : Int) * (h : Int)) 8 = ((w * h / 8 : Nat) : Int) := by
    rw [← Int.ofNat_mul]
    exact (Int.ofNat_tdiv (w * h) 8).symm
  have hbit : bit_within_page (y : Int) = ((y % 8 : Nat) : Int) :=
    (Int.ofNat_tmod y 8).symm
  rw [htot, src_byte_index_natCast, dst_byte_index_natCast, hbit]
  refine ⟨⟨Int.ofNat_nonneg _, Int.ofNat_lt.mpr (src_index_lt hw hx hy)⟩,
    ⟨Int.ofNat_nonneg _, Int.ofNat_lt.mpr (dst_index_lt hh hx hy)⟩,
    ⟨Int.ofNat_nonneg _, ?_⟩, ?_⟩
  · have h8 : y % 8 < 8 := Nat.mod_lt _ (by decide)
    omega
  · intro src dst hsrc hdst
    exact ⟨_, xbm_to_page_packed_eq hw hh (Nat.le_of_eq hsrc.symm) (Nat.le_of_eq hdst.symm)⟩

/-- C9 at the last pixel of a 16 x 8 bitmap. -/
theorem C9_index_safety_witness :
    (16 % 8 = 0 ∧ 8 % 8 = 0 ∧ 15 < 16 ∧ 7 < 8) ∧
    ((0 ≤ src_byte_index (Int.tdiv ((16 : Nat) : Int) 8) ((15 : Nat) : Int) ((7 : Nat) : Int) ∧
      src_byte_index (Int.tdiv ((16 : Nat) : Int) 8) ((15 : Nat) : Int) ((7 : Nat) : Int)
        < Int.tdiv (((16 : Nat) : Int) * ((8 : Nat) : Int)) 8) ∧
    (0 ≤ dst_byte_index ((16 : Nat) : Int) ((15 : Nat) : Int) ((7 : Nat) : Int) ∧
      dst_byte_index ((16 : Nat) : Int) ((15 : Nat) : Int) ((7 : Nat) : Int)
        < Int.tdiv (((16 : Nat) : Int) * ((8 : Nat) : Int)) 8) ∧
    (0 ≤ bit_within_page ((7 : Nat) : Int) ∧ bit_within_page ((7 : Nat) : Int) < 8) ∧
    (∀ src dst : List Nat, src.length = 16 * 8 / 8 → dst.length = 16 * 8 / 8 →
      ∃ out, xbm_to_page_packed dst src ((16 : Nat) : Int) ((8 : Nat) : Int) = some out)) :=
  ⟨by decide, C9_index_safety 16 8 15 7 (by decide) (by decide) (by decide) (by decide)⟩

/-- C10: zero dimensions are fatal with no partial output.  Whenever the parsed width or
the parsed height is 0, also because no line declares the width or no line declares the
height, `main` returns 1 after the diagnostic and `fclose` alone: no `calloc`, no call of
`xbm_to_page_packed`, nothing on `stdout`. -/
theorem C10_zero_dimensions_fatal (libc : Libc) (fuel : Nat) (argc : Int)
    (lines : List (List Char)) (hargc : 2 ≤ argc)
    (hzero : (readHeader libc lines 0 0 []).width = 0 ∨
      (readHeader libc lines 0 0 []).height = 0 ∨
      (∀ l ∈ lines, ∀ n v, libc.sscanf_width l ≠ WidthScan.full n v) ∨
      (∀ l ∈ lines, libc.sscanf_height l = none)) :
    main libc fuel argc (some lines) = Run.exit 1 [Event.failedDims, Event.fclose] := by
  have hdims : (readHeader libc lines 0 0 []).width = 0 ∨
      (readHeader libc lines 0 0 []).height = 0 := by
    rcases hzero with h1 | h1 | h1 | h1
    · exact Or.inl h1
    · exact Or.inr h1
    · exact Or.inl (readHeader_width libc lines h1 0 0 [])
    · exact Or.inr (readHeader_height libc lines h1 0 0 [])
  unfold main
  rw [if_neg (by omega)]
  dsimp only
  rw [if_pos hdims]

/-- C10 on a file with no width declaration. -/
theorem C10_zero_dimensions_fatal_witness :
    ((2 : Int) ≤ 2 ∧ (readHeader xbmLibc fileNoWidth 0 0 []).width = 0 ∧
      (readHeader xbmLibc fileNoWidth 0 0 []).height = 8) ∧
    main xbmLibc 100 2 (some fileNoWidth) = Run.exit 1 [Event.failedDims, Event.fclose] :=
  ⟨by decide, C10_zero_dimensions_fatal xbmLibc 100 2 fileNoWidth (by decide)
    (Or.inl (by decide))⟩

/-- C11, at a failing input: on the file `fileShort8x8`, which holds four of the eight
bytes of its 8 x 8 bitmap and ends with a closing brace, `main` never leaves the loop of
lines 100-116, whatever the iteration bound: no warning is printed and
`xbm_to_page_packed` is never called. -/
theorem C11_short_file_never_converted (fuel : Nat) :
    main xbmLibc fuel 2 (some fileShort8x8) = Run.hang [Event.calloc 8] := by
  have hw : (readHeader xbmLibc fileShort8x8 0 0 []).width = 8 := by decide
  have hh : (readHeader xbmLibc fileShort8x8 0 0 []).height = 8 := by decide
  have hr : (readHeader xbmLibc fileShort8x8 0 0 []).rest
      = ["   0x01, 0x02, 0x04, 0x08 \x7d;\n".toList] := by decide
  unfold main
  rw [if_neg (by decide)]
  dsimp only
  rw [if_neg (by rw [hw, hh]; decide)]
  unfold convert
  dsimp only
  rw [hw, hh, hr]
  have hd : readData xbmLibc (Int.tdiv (8 * 8) 8) fuel
      ["   0x01, 0x02, 0x04, 0x08 \x7d;\n".toList] 0 (callocBuffer (Int.tdiv (8 * 8) 8))
      = .error .fuel := by
    show readData xbmLibc 8 fuel _ 0 (List.replicate 8 0) = _
    unfold readData
    rw [if_pos (by decide), scanLine_fileShort8x8]
  rw [hd]
  rfl

/-- C12: each destination bit is written by exactly one pixel.  For width and height
multiples of 8, the map `(x, y) -> ((y/8)*width + x, y mod 8)` that `xbm_to_page_packed`
computes is a bijection from `[0,width) x [0,height)` onto `[0, width*height/8) x [0,8)`,
and so is the source map `(x, y) -> (y*(width/8) + x/8, x mod 8)`. -/
theorem C12_bit_maps_bijective (w h : Nat) (hw : w % 8 = 0) (hh : h % 8 = 0) :
    Set.BijOn
      (fun p : Nat × Nat =>
        (dst_byte_index (w : Int) (p.1 : Int) (p.2 : Int), bit_within_page (p.2 : Int)))
      {p | p.1 < w ∧ p.2 < h}
      {q | (0 ≤ q.1 ∧ q.1 < Int.tdiv ((w : Int) * (h : Int)) 8) ∧ (0 ≤ q.2 ∧ q.2 < 8)} ∧
    Set.BijOn
      (fun p : Nat × Nat =>
        (src_byte_index (Int.tdiv (w : Int) 8) (p.1 : Int) (p.2 : Int), src_bit (p.1 : Int)))
      {p | p.1 < w ∧ p.2 < h}
      {q | (0 ≤ q.1 ∧ q.1 < Int.tdiv ((w : Int) * (h : Int)) 8) ∧ (0 ≤ q.2 ∧ q.2 < 8)} := by
  rw [total_int_natCast]
  constructor
  · refine ⟨?_, ?_, ?_⟩
    · rintro ⟨x, y⟩ ⟨hx, hy⟩
      simp only [Set.mem_setOf_eq, dst_byte_index_natCast, bit_within_page_eq_natCast]
      have h8 : y % 8 < 8 := Nat.mod_lt _ (by decide)
      exact ⟨⟨Int.ofNat_nonneg _, Int.ofNat_lt.mpr (dst_index_lt hh hx hy)⟩,
        Int.ofNat_nonneg _, by omega⟩
    · rintro ⟨x, y⟩ ⟨hx, _⟩ ⟨x', y'⟩ ⟨hx', _⟩ heq
      simp only [dst_byte_index_natCast, bit_within_page_eq_natCast, Prod.mk.injEq,
        Int.ofNat_inj] at heq
      obtain ⟨h1, h2⟩ := @pixel_eq_of_dst_index w x y x' y' hx hx' heq.1 heq.2
      rw [h1, h2]
    · rintro ⟨i, k⟩ ⟨⟨hi0, hi⟩, hk0, hk⟩
      obtain ⟨i, rfl⟩ := Int.eq_ofNat_of_zero_le hi0
      obtain ⟨k, rfl⟩ := Int.eq_ofNat_of_zero_le hk0
      have hi' : i < w * h / 8 := Int.ofNat_lt.mp hi
      have hk' : k < 8 := by omega
      refine ⟨(i % w, 8 * (i / w) + k),
        ⟨col_lt_of_index_lt hi', row_lt_of_index_lt hh hi' hk'⟩, ?_⟩
      obtain ⟨h1, h2⟩ := @index_eq_of_pixel w i k _ _ hk' rfl rfl
      simp only [dst_byte_index_natCast, bit_within_page_eq_natCast, Prod.mk.injEq,
        Int.ofNat_inj]
      exact ⟨h1.symm, h2.symm⟩
  · refine ⟨?_, ?_, ?_⟩
    · rintro ⟨x, y⟩ ⟨hx, hy⟩
      simp only [Set.mem_setOf_eq, src_byte_index_natCast, src_bit_eq_natCast]
      have h8 : x % 8 < 8 := Nat.mod_lt _ (by decide)
      exact ⟨⟨Int.ofNat_nonneg _, Int.ofNat_lt.mpr (src_index_lt hw hx hy)⟩,
        Int.ofNat_nonneg _, by omega⟩
    · rintro ⟨x, y⟩ ⟨hx, _⟩ ⟨x', y'⟩ ⟨hx', _⟩ heq
      simp only [src_byte_index_natCast, src_bit_eq_natCast, Prod.mk.injEq,
        Int.ofNat_inj] at heq
      obtain ⟨h1, h2⟩ := @pixel_eq_of_src_index w x y x' y' hw hx hx' heq.1 heq.2
      rw [h1, h2]
    · rintro ⟨j, b⟩ ⟨⟨hj0, hj⟩, hb0, hb⟩
      obtain ⟨j, rfl⟩ := Int.eq_ofNat_of_zero_le hj0
      obtain ⟨b, rfl⟩ := Int.eq_ofNat_of_zero_le hb0
      have hj' : j < w * h / 8 := Int.ofNat_lt.mp hj
      have hb' : b < 8 := by omega
      have hw0 : 0 < w := by
        rcases Nat.eq_zero_or_pos w with h0 | h0
        · subst h0; simp at hj'
        · exact h0
      obtain ⟨h1, h2, h3⟩ := @row_index_of_byte w j b hw hb' hw0
      refine ⟨(8 * (j % (w / 8)) + b, j / (w / 8)), ⟨h1, row_lt_of_byte hw hj'⟩, ?_⟩
      simp only [src_byte_index_natCast, src_bit_eq_natCast, Prod.mk.injEq, Int.ofNat_inj]
      exact ⟨h2, h3⟩

/-- C12 for a 16 x 8 bitmap. -/
theorem C12_bit_maps_bijective_witness :
    (16 % 8 = 0 ∧ 8 % 8 = 0) ∧
    (Set.BijOn
      (fun p : Nat × Nat =>
        (dst_byte_index ((16 : Nat) : Int) (p.1 : Int) (p.2 : Int), bit_within_page (p.2 : Int)))
      {p | p.1 < 16 ∧ p.2 < 8}
      {q | (0 ≤ q.1 ∧ q.1 < Int.tdiv (((16 : Nat) : Int) * ((8 : Nat) : Int)) 8) ∧
        (0 ≤ q.2 ∧ q.2 < 8)} ∧
    Set.BijOn
      (fun p : Nat × Nat =>
        (src_byte_index (Int.tdiv ((16 : Nat) : Int) 8) (p.1 : Int) (p.2 : Int),
          src_bit (p.1 : Int)))
      {p | p.1 < 16 ∧ p.2 < 8}
      {q | (0 ≤ q.1 ∧ q.1 < Int.tdiv (((16 : Nat) : Int) * ((8 : Nat) : Int)) 8) ∧
        (0 ≤ q.2 ∧ q.2 < 8)}) :=
  ⟨by decide, C12_bit_maps_bijective 16 8 (by decide) (by decide)⟩

/-- C13: iteration order does not affect the result.  For width and height multiples of 8
and a source of `width*height/8` bytes, the variant of `xbm_to_page_packed` with the loops
exchanged (`x` outside, `y` inside), and the variant that visits the pixels in the order of
any permutation of the pixel coordinates, both after the same zero initialisation, produce
exactly the destination the row-major loops of the code produce; the code itself is the
variant on the row-major list. -/
theorem C13_iteration_order_irrelevant (w h : Nat) (src dst : List Nat)
    (hw : w % 8 = 0) (hh : h % 8 = 0) (hsrc : src.length = w * h / 8)
    (hdst : w * h / 8 ≤ dst.length) :
    (∃ out, xbm_to_page_packed dst src (w : Int) (h : Int) = some out ∧
      xbm_to_page_packed_column_major dst src (w : Int) (h : Int) = some out ∧
      ∀ ps : List (Nat × Nat), List.Perm ps (rowMajor w h) →
        xbm_to_page_packed_in_order ps dst src (w : Int) (h : Int) = some out) ∧
    xbm_to_page_packed_in_order (rowMajor w h) dst src (w : Int) (h : Int)
      = xbm_to_page_packed dst src (w : Int) (h : Int) := by
  have hsrc' : w * h / 8 ≤ src.length := Nat.le_of_eq hsrc.symm
  refine ⟨⟨_, xbm_to_page_packed_eq hw hh hsrc' hdst, ?_, ?_⟩,
    (xbm_to_page_packed_eq_in_order dst src w h).symm⟩
  · rw [column_major_eq_in_order]
    exact in_order_eq hw hh hsrc' hdst _ (fun p => mem_colMajor)
  · intro ps hperm
    apply in_order_eq hw hh hsrc' hdst
    intro p
    rw [hperm.mem_iff]
    exact mem_rowMajor

/-- C13 on an 8 x 8 bitmap. -/
theorem C13_iteration_order_irrelevant_witness :
    (8 % 8 = 0 ∧ [0x3C, 0x42, 0xA5, 0x81, 0xA5, 0x99, 0x42, 0x3F].length = 8 * 8 / 8) ∧
    ((∃ out, xbm_to_page_packed (List.replicate 8 0)
        [0x3C, 0x42, 0xA5, 0x81, 0xA5, 0x99, 0x42, 0x3F] ((8 : Nat) : Int) ((8 : Nat) : Int)
        = some out ∧
      xbm_to_page_packed_column_major (List.replicate 8 0)
        [0x3C, 0x42, 0xA5, 0x81, 0xA5, 0x99, 0x42, 0x3F] ((8 : Nat) : Int) ((8 : Nat) : Int)
        = some out ∧
      ∀ ps : List (Nat × Nat), List.Perm ps (rowMajor 8 8) →
        xbm_to_page_packed_in_order ps (List.replicate 8 0)
          [0x3C, 0x42, 0xA5, 0x81, 0xA5, 0x99, 0x42, 0x3F] ((8 : Nat) : Int) ((8 : Nat) : Int)
          = some out) ∧
    xbm_to_page_packed_in_order (rowMajor 8 8) (List.replicate 8 0)
        [0x3C, 0x42, 0xA5, 0x81, 0xA5, 0x99, 0x42, 0x3F] ((8 : Nat) : Int) ((8 : Nat) : Int)
      = xbm_to_page_packed (List.replicate 8 0)
          [0x3C, 0x42, 0xA5, 0x81, 0xA5, 0x99, 0x42, 0x3F] ((8 : Nat) : Int) ((8 : Nat) : Int)) :=
  ⟨by decide, C13_iteration_order_irrelevant 8 8 [0x3C, 0x42, 0xA5, 0x81, 0xA5, 0x99, 0x42, 0x3F]
    (List.replicate 8 0) (by decide) (by decide) (by decide) (by decide)⟩

/-- C14: page independence.  For width and height multiples of 8 and a page `p` below
`height/8`, the output bytes of `xbm_to_page_packed` at the indices `[p*width, (p+1)*width)`
depend only on the source bytes at the indices `[p*width, (p+1)*width)`: two sources of
`width*height/8` bytes that agree there give outputs that agree there. -/
theorem C14_page_independence (w h p : Nat) (src1 src2 dst1 dst2 : List Nat)
    (hw : w % 8 = 0) (hh : h % 8 = 0) (hp : p < h / 8)
    (hsrc1 : src1.length = w * h / 8) (hsrc2 : src2.length = w * h / 8)
    (hdst1 : w * h / 8 ≤ dst1.length) (hdst2 : w * h / 8 ≤ dst2.length)
    (hagree : ∀ j, p * w ≤ j → j < (p + 1) * w → src1[j]? = src2[j]?) :
    ∃ out1 out2, xbm_to_page_packed dst1 src1 (w : Int) (h : Int) = some out1 ∧
      xbm_to_page_packed dst2 src2 (w : Int) (h : Int) = some out2 ∧
      ∀ i, p * w ≤ i → i < (p + 1) * w → out1[i]? = out2[i]? := by
  refine ⟨_, _, xbm_to_page_packed_eq hw hh (Nat.le_of_eq hsrc1.symm) hdst1,
    xbm_to_page_packed_eq hw hh (Nat.le_of_eq hsrc2.symm) hdst2, ?_⟩
  intro i hi1 hi2
  have hT : (p + 1) * w ≤ w * h / 8 := by
    rw [total_eq_pages w hh]
    exact Nat.mul_le_mul_right w hp
  have hi : i < w * h / 8 := by omega
  rw [List.getElem?_append_left (by rw [length_pagePacked]; exact hi),
    List.getElem?_append_left (by rw [length_pagePacked]; exact hi),
    getElem?_pagePacked src1 hi, getElem?_pagePacked src2 hi]
  congr 1
  apply byteOfBits_congr
  intro k hk
  obtain ⟨_, h1, h2⟩ := page_src_index hw hi1 hi2 hk
  exact rowPixel_congr (hagree _ h1 h2)

/-- C14 on page 1 of an 8 x 16 bitmap, with two sources that differ on page 0 only. -/
theorem C14_page_independence_witness :
    (8 % 8 = 0 ∧ 16 % 8 = 0 ∧ 1 < 16 / 8 ∧
      [0, 0, 0, 0, 0, 0, 0, 0, 1, 2, 3, 4, 5, 6, 7, 8]
        ≠ [255, 255, 255, 255, 255, 255, 255, 255, 1, 2, 3, 4, 5, 6, 7, 8]) ∧
    ∃ out1 out2,
      xbm_to_page_packed (List.replicate 16 0) [0, 0, 0, 0, 0, 0, 0, 0, 1, 2, 3, 4, 5, 6, 7, 8]
        ((8 : Nat) : Int) ((16 : Nat) : Int) = some out1 ∧
      xbm_to_page_packed (List.replicate 16 0)
        [255, 255, 255, 255, 255, 255, 255, 255, 1, 2, 3, 4, 5, 6, 7, 8]
        ((8 : Nat) : Int) ((16 : Nat) : Int) = some out2 ∧
      ∀ i, 1 * 8 ≤ i → i < (1 + 1) * 8 → out1[i]? = out2[i]? :=
  ⟨by decide, C14_page_independence 8 16 1 [0, 0, 0, 0, 0, 0, 0, 0, 1, 2, 3, 4, 5, 6, 7, 8]
    [255, 255, 255, 255, 255, 255, 255, 255, 1, 2, 3, 4, 5, 6, 7, 8]
    (List.replicate 16 0) (List.replicate 16 0)
    (by decide) (by decide) (by decide) (by decide) (by decide) (by decide) (by decide)
    (fun j h1 h2 => by interval_cases j <;> rfl)⟩

/-- C15: the result does not depend on what the destination held, and nothing else is
touched.  For width and height multiples of 8 and a source of `width*height/8` bytes,
`xbm_to_page_packed` on two destinations with arbitrary contents gives the same bytes at
the indices `[0, width*height/8)`, and every destination byte at an index from
`width*height/8` on keeps its value. -/
theorem C15_destination_contents_irrelevant (w h : Nat) (src dst1 dst2 : List Nat)
    (hw : w % 8 = 0) (hh : h % 8 = 0) (hsrc : src.length = w * h / 8)
    (hdst1 : w * h / 8 ≤ dst1.length) (hdst2 : w * h / 8 ≤ dst2.length) :
    ∃ out1 out2, xbm_to_page_packed dst1 src (w : Int) (h : Int) = some out1 ∧
      xbm_to_page_packed dst2 src (w : Int) (h : Int) = some out2 ∧
      (∀ i, i < w * h / 8 → out1[i]? = out2[i]?) ∧
      (out1.length = dst1.length ∧ ∀ i, w * h / 8 ≤ i → out1[i]? = dst1[i]?) ∧
      (out2.length = dst2.length ∧ ∀ i, w * h / 8 ≤ i → out2[i]? = dst2[i]?) := by
  have hsrc' : w * h / 8 ≤ src.length := Nat.le_of_eq hsrc.symm
  have hrest : ∀ dst : List Nat, w * h / 8 ≤ dst.length →
      (pagePacked w h src ++ dst.drop (w * h / 8)).length = dst.length ∧
      ∀ i, w * h / 8 ≤ i → (pagePacked w h src ++ dst.drop (w * h / 8))[i]? = dst[i]? := by
    intro dst hdst
    constructor
    · rw [List.length_append, length_pagePacked, List.length_drop]
      omega
    · intro i hi
      rw [List.getElem?_append_right (by rw [length_pagePacked]; exact hi),
        length_pagePacked, List.getElem?_drop]
      congr 1
      omega
  refine ⟨_, _, xbm_to_page_packed_eq hw hh hsrc' hdst1,
    xbm_to_page_packed_eq hw hh hsrc' hdst2, ?_, hrest dst1 hdst1, hrest dst2 hdst2⟩
  intro i hi
  rw [List.getElem?_append_left (by rw [length_pagePacked]; exact hi),
    List.getElem?_append_left (by rw [length_pagePacked]; exact hi)]

/-- C15 on an 8 x 8 bitmap and destinations of 10 and 8 bytes. -/
theorem C15_destination_contents_irrelevant_witness :
    (8 % 8 = 0 ∧ 8 * 8 / 8 ≤ (List.replicate 10 0xAA).length ∧
      8 * 8 / 8 ≤ (List.replicate 8 0x55).length) ∧
    ∃ out1 out2,
      xbm_to_page_packed (List.replicate 10 0xAA)
        [0x3C, 0x42, 0xA5, 0x81, 0xA5, 0x99, 0x42, 0x3F] ((8 : Nat) : Int) ((8 : Nat) : Int)
        = some out1 ∧
      xbm_to_page_packed (List.replicate 8 0x55)
        [0x3C, 0x42, 0xA5, 0x81, 0xA5, 0x99, 0x42, 0x3F] ((8 : Nat) : Int) ((8 : Nat) : Int)
        = some out2 ∧
      (∀ i, i < 8 * 8 / 8 → out1[i]? = out2[i]?) ∧
      (out1.length = (List.replicate 10 0xAA).length ∧
        ∀ i, 8 * 8 / 8 ≤ i → out1[i]? = (List.replicate 10 0xAA)[i]?) ∧
      (out2.length = (List.replicate 8 0x55).length ∧
        ∀ i, 8 * 8 / 8 ≤ i → out2[i]? = (List.replicate 8 0x55)[i]?) :=
  ⟨by decide, C15_destination_contents_irrelevant 8 8
    [0x3C, 0x42, 0xA5, 0x81, 0xA5, 0x99, 0x42, 0x3F] (List.replicate 10 0xAA)
    (List.replicate 8 0x55) (by decide) (by decide) (by decide) (by decide) (by decide)⟩

/-- C16: when the height is not a multiple of 8 the transform writes past the buffer.  For
every width that is a positive multiple of 8 and every positive height that is not a
multiple of 8, the destination index `(y/8)*width + x` that `xbm_to_page_packed` computes
for the pixel `(width-1, height-1)` is at least `(width*height)/8`, the length of the
destination `main` allocates; when that pixel is set the store of line 48 leaves a
destination of that length; and `main` has no check against it: once the header gives
these dimensions, the allocations succeed and the reading loop ends, `main` makes the call
with buffers of `(width*height)/8` bytes. -/
theorem C16_height_not_multiple_of_8 (w h : Nat)
    (hw0 : 0 < w) (hw : w % 8 = 0) (hh0 : 0 < h) (hh : h % 8 ≠ 0) :
    Int.tdiv ((w : Int) * (h : Int)) 8
      ≤ dst_byte_index (w : Int) ((w - 1 : Nat) : Int) ((h - 1 : Nat) : Int) ∧
    (∀ (src dst : List Nat) (b : Nat), dst.length = w * h / 8 →
      src[(h - 1) * (w / 8) + (w - 1) / 8]? = some b → b.testBit ((w - 1) % 8) = true →
      xbm_to_page_packed dst src (w : Int) (h : Int) = none) ∧
    (∀ (libc : Libc) (fuel : Nat) (argc : Int) (lines : List (List Char)) (count : Int)
      (row_packed_data : List Nat), 2 ≤ argc →
      (readHeader libc lines 0 0 []).width = (w : Int) →
      (readHeader libc lines 0 0 []).height = (h : Int) →
      libc.calloc 0 (Int.tdiv ((w : Int) * (h : Int)) 8) = true →
      libc.calloc 1 (Int.tdiv ((w : Int) * (h : Int)) 8) = true →
      readData libc (Int.tdiv ((w : Int) * (h : Int)) 8) fuel
          (readHeader libc lines 0 0 []).rest 0
          (callocBuffer (Int.tdiv ((w : Int) * (h : Int)) 8))
        = .ok (count, row_packed_data) →
      Event.call (callocBuffer (Int.tdiv ((w : Int) * (h : Int)) 8)) row_packed_data
          (w : Int) (h : Int) ∈ (main libc fuel argc (some lines)).trace) := by
  refine ⟨?_, ?_, ?_⟩
  · rw [total_int_natCast, dst_byte_index_natCast]
    exact Int.ofNat_le.mpr (last_dst_index_ge hw0 hw hh0 hh)
  · intro src dst b hdst hb hbit
    exact xbm_to_page_packed_fault hw0 hw hh0 hh hdst hb hbit
  · intro libc fuel argc lines count row hargc hwidth hheight hc0 hc1 hread
    have hwne : (readHeader libc lines 0 0 []).width ≠ 0 := by rw [hwidth]; omega
    have hhne : (readHeader libc lines 0 0 []).height ≠ 0 := by rw [hheight]; omega
    rw [main_eq_convert libc fuel argc lines hargc hwne hhne]
    have hcall := convert_calls libc fuel (readHeader libc lines 0 0 []) count row
      (by rw [hwidth, hheight]; exact hc0) (by rw [hwidth, hheight]; exact hc1)
      (by rw [hwidth, hheight]; exact hread)
    rw [hwidth, hheight] at hcall
    exact hcall.1

/-- C16 for width 8 and height 12: index 15 against length 12, and the run of `main` on
`file8x12`. -/
theorem C16_height_not_multiple_of_8_witness :
    (0 < 8 ∧ 8 % 8 = 0 ∧ 0 < 12 ∧ 12 % 8 ≠ 0 ∧
      dst_byte_index 8 7 11 = 15 ∧ Int.tdiv (8 * 12) 8 = 12 ∧
      main xbmLibc 100 2 (some file8x12)
        = Run.undefined [Event.calloc 12, Event.fclose, Event.calloc 12,
            Event.call (List.replicate 12 0) (List.replicate 12 255) 8 12]) ∧
    (Int.tdiv (((8 : Nat) : Int) * ((12 : Nat) : Int)) 8
      ≤ dst_byte_index ((8 : Nat) : Int) ((8 - 1 : Nat) : Int) ((12 - 1 : Nat) : Int) ∧
    (∀ (src dst : List Nat) (b : Nat), dst.length = 8 * 12 / 8 →
      src[(12 - 1) * (8 / 8) + (8 - 1) / 8]? = some b → b.testBit ((8 - 1) % 8) = true →
      xbm_to_page_packed dst src ((8 : Nat) : Int) ((12 : Nat) : Int) = none) ∧
    (∀ (libc : Libc) (fuel : Nat) (argc : Int) (lines : List (List Char)) (count : Int)
      (row_packed_data : List Nat), 2 ≤ argc →
      (readHeader libc lines 0 0 []).width = ((8 : Nat) : Int) →
      (readHeader libc lines 0 0 []).height = ((12 : Nat) : Int) →
      libc.calloc 0 (Int.tdiv (((8 : Nat) : Int) * ((12 : Nat) : Int)) 8) = true →
      libc.calloc 1 (Int.tdiv (((8 : Nat) : Int) * ((12 : Nat) : Int)) 8) = true →
      readData libc (Int.tdiv (((8 : Nat) : Int) * ((12 : Nat) : Int)) 8) fuel
          (readHeader libc lines 0 0 []).rest 0
          (callocBuffer (Int.tdiv (((8 : Nat) : Int) * ((12 : Nat) : Int)) 8))
        = .ok (count, row_packed_data) →
      Event.call (callocBuffer (Int.tdiv (((8 : Nat) : Int) * ((12 : Nat) : Int)) 8))
          row_packed_data ((8 : Nat) : Int) ((12 : Nat) : Int)
        ∈ (main libc fuel argc (some lines)).trace)) :=
  ⟨by decide, C16_height_not_multiple_of_8 8 12 (by decide) (by decide) (by decide)
    (by decide)⟩

/-- C17: for width 8 the transform is an involution.  For every height that is a multiple
of 8 and every source of `height` bytes, applying `xbm_to_page_packed` with width 8 to its
own output gives back the source. -/
theorem C17_width_8_involution (h : Nat) (src dst1 dst2 : List Nat)
    (hh : h % 8 = 0) (hsrc : src.length = h) (hbytes : ∀ b ∈ src, b < 256)
    (hdst1 : dst1.length = h) (hdst2 : dst2.length = h) :
    ∃ out, xbm_to_page_packed dst1 src 8 (h : Int) = some out ∧
      xbm_to_page_packed dst2 out 8 (h : Int) = some src := by
  have hT : 8 * h / 8 = h := Nat.mul_div_cancel_left h (by decide)
  have hrun1 := @xbm_to_page_packed_eq src dst1 8 h (by decide) hh (by omega) (by omega)
  have hrun2 := @xbm_to_page_packed_eq (pagePacked 8 h src) dst2 8 h (by decide) hh
    (by rw [length_pagePacked]) (by omega)
  rw [List.drop_of_length_le (by omega), List.append_nil] at hrun1 hrun2
  rw [pagePacked_width_8_involutive hh hsrc hbytes] at hrun2
  exact ⟨_, hrun1, hrun2⟩

/-- C17 on an 8 x 16 bitmap. -/
theorem C17_width_8_involution_witness :
    (16 % 8 = 0 ∧ [0x3C, 0x42, 0xA5, 0x81, 0xA5, 0x99, 0x42, 0x3F, 1, 2, 3, 4, 5, 6, 7, 8].length
      = 16) ∧
    ∃ out, xbm_to_page_packed (List.replicate 16 0)
        [0x3C, 0x42, 0xA5, 0x81, 0xA5, 0x99, 0x42, 0x3F, 1, 2, 3, 4, 5, 6, 7, 8] 8
        ((16 : Nat) : Int) = some out ∧
      xbm_to_page_packed (List.replicate 16 0xFF) out 8 ((16 : Nat) : Int)
        = some [0x3C, 0x42, 0xA5, 0x81, 0xA5, 0x99, 0x42, 0x3F, 1, 2, 3, 4, 5, 6, 7, 8] :=
  ⟨by decide, C17_width_8_involution 16
    [0x3C, 0x42, 0xA5, 0x81, 0xA5, 0x99, 0x42, 0x3F, 1, 2, 3, 4, 5, 6, 7, 8]
    (List.replicate 16 0) (List.replicate 16 0xFF)
    (by decide) (by decide) (by decide) (by decide) (by decide)⟩

end Xbm2qmk
